import Mathlib

/-!
Shallow embedding of the support/resistance detection core of the
StockAnalysis repository (src/finance_tools.py, src/mytools.py).

Modelling conventions:
* a pandas Timestamp (calendar day) is a natural number of days;
* a Python float price is an exact rational (ℚ);
* a Python dict[date, price] is an association list `List (Nat × ℚ)` in
  insertion order; a well-formed dict produced by the pipeline has its
  keys in strictly ascending date order (`WFg` below);
* Python dict equality (order-insensitive key/value equality) is `dictBeq`;
* a two-column date/price DataFrame is a `List (Nat × ℚ)` of rows, and the
  mutable column-name state of a DataFrame is made explicit by `PTable`;
* Python exceptions (ValueError) are `Except` errors;
* `eval` of a processed condition string on a level object is abstracted
  as an explicit valuation `List Char → SupportObj → Bool` passed to the
  filter functions; the string preprocessing itself is embedded faithfully.
-/

namespace StockAnalysis

attribute [local semireducible] Rat.add Rat.sub Rat.mul Rat.inv

abbrev PyDict := List (Nat × ℚ)

abbrev ScoredGroup := Nat × PyDict

/-- Well-formedness of a candidate-level mapping: the association list
represents a Python dict whose keys were inserted in ascending date order,
as produced by find_supports / find_resistances / create_tolerance_group. -/
def WFg (g : ScoredGroup) : Prop := (g.2.map Prod.fst).Pairwise (· < ·)

instance : DecidablePred WFg := fun g =>
  inferInstanceAs (Decidable ((g.2.map Prod.fst).Pairwise (· < ·)))

/- ---------------------------------------------------------------------
   mytools.series_range and finance_tools.calculate_tolerance
--------------------------------------------------------------------- -/

/-- Binary max on rationals, written out so that it evaluates inside the
kernel. -/
def pyMaxQ (a b : ℚ) : ℚ := if a ≤ b then b else a

/-- Binary min on rationals. -/
def pyMinQ (a b : ℚ) : ℚ := if b ≤ a then b else a

/-- Python abs on rationals. -/
def pyAbsQ (x : ℚ) : ℚ := if x < 0 then -x else x

/-- Python max over a nonempty iterable of prices (0 on the empty list,
where Python would raise ValueError). -/
def listMax (l : List ℚ) : ℚ :=
  match l with
  | [] => 0
  | a :: t => t.foldl pyMaxQ a

/-- Python min over a nonempty iterable of prices (0 on the empty list,
where Python would raise ValueError). -/
def listMin (l : List ℚ) : ℚ :=
  match l with
  | [] => 0
  | a :: t => t.foldl pyMinQ a

/-- mytools.series_range: max(items) - min(items). -/
def series_range (l : List ℚ) : ℚ := listMax l - listMin l

/-- finance_tools.calculate_tolerance: tiered mapping on the spread. -/
def calculate_tolerance (column : List ℚ) : ℚ :=
  let spread := series_range column
  if spread ≤ 50 then 3
  else if spread ≤ 100 then 5
  else 10

/-- finance_tools.create_tolerance_function: the closure testing
abs(value1 - value2) <= tolerance. -/
def create_tolerance_function (column : List ℚ) : ℚ → ℚ → Bool :=
  fun value1 value2 => decide (pyAbsQ (value1 - value2) ≤ calculate_tolerance column)

/-- statistics.mean / pandas Series.mean: sum divided by length. -/
def listMean (l : List ℚ) : ℚ := l.sum / (l.length : ℚ)

/- ---------------------------------------------------------------------
   Python dict primitives used by the clustering code
--------------------------------------------------------------------- -/

/-- Python dict assignment d[k] = v on a date-keyed dict: overwrite in
place if the key exists (keeping its position), else append. -/
def ndictInsert (k : Nat) (v : ℚ) (d : PyDict) : PyDict :=
  if (d.map Prod.fst).contains k then
    d.map (fun p => if p.1 = k then (k, v) else p)
  else d ++ [(k, v)]

/-- Python dict assignment d[k] = v on a price-keyed dict of dicts. -/
def qdictInsert (k : ℚ) (v : PyDict) (d : List (ℚ × PyDict)) : List (ℚ × PyDict) :=
  if (d.map Prod.fst).contains k then
    d.map (fun p => if p.1 = k then (k, v) else p)
  else d ++ [(k, v)]

/-- In-place update of the dict stored under an existing price key
(tolerance_groups[value1][key2] = value2). -/
def qdictModify (k : ℚ) (f : PyDict → PyDict) (d : List (ℚ × PyDict)) : List (ℚ × PyDict) :=
  d.map (fun p => if p.1 = k then (k, f p.2) else p)

/-- Python == on two date→price dicts: order-insensitive equality of the
key/value pairs. -/
def dictBeq (d1 d2 : PyDict) : Bool :=
  d1.all (fun p => decide (List.lookup p.1 d2 = some p.2)) &&
  d2.all (fun p => decide (List.lookup p.1 d1 = some p.2))

/-- Python == on (num_touches, dict) tuples. -/
def groupBeq (g1 g2 : ScoredGroup) : Bool :=
  decide (g1.1 = g2.1) && dictBeq g1.2 g2.2

/-- finance_tools.at_least_2_common: do the two dicts share two or more
keys?  The inner break makes each key of dict1 count at most once, so the
loop counts the keys of dict1 that occur among the keys of dict2 and
compares with 2. -/
def at_least_2_common (dict1 dict2 : PyDict) : Bool :=
  decide (2 ≤ (dict1.map Prod.fst).countP (fun k => (dict2.map Prod.fst).contains k))

/- ---------------------------------------------------------------------
   finance_tools.remove_redundant_groups
--------------------------------------------------------------------- -/

/-- Python list.remove under a membership guard: delete the first element
equal (Python ==) to y, or leave the list unchanged when none is. -/
def pyRemove (y : ScoredGroup) : List ScoredGroup → List ScoredGroup
  | [] => []
  | x :: xs => if groupBeq x y then xs else x :: pyRemove y xs

/-- The removal pass of remove_redundant_groups: for each tuple of the
accumulated remove_list, remove it from the list if present. -/
def applyRemovals (rem : List ScoredGroup) (lst : List ScoredGroup) : List ScoredGroup :=
  rem.foldl (fun l y => pyRemove y l) lst

/-- The removal condition of remove_redundant_groups:
(index1, value1) != (index2, value2) and at_least_2_common(value1, value2). -/
def rrgCond (x y : ScoredGroup) : Bool :=
  !(groupBeq x y) && at_least_2_common x.2 y.2

/-- One faithful execution of the outer for-loop of
remove_redundant_groups.  Python's list iterator keeps an integer cursor i
into the list being mutated; each iteration reads lst[i], appends the
overlapping tuples of the current list to the persistent remove_list, runs
the removal pass of the whole remove_list over the current list, and
advances the cursor.  The loop ends when the cursor runs off the list.
`fuel` bounds the number of iterations; the caller supplies one more unit
than the list length, which the cursor can never exceed. -/
def rrgAux : Nat → List ScoredGroup → List ScoredGroup → Nat → List ScoredGroup
  | 0, lst, _, _ => lst
  | fuel + 1, lst, rem, i =>
    match lst[i]? with
    | none => lst
    | some x =>
      let newRem := lst.filter (fun y => rrgCond x y)
      let rem2 := rem ++ newRem
      rrgAux fuel (applyRemovals rem2 lst) rem2 (i + 1)

/-- finance_tools.remove_redundant_groups. -/
def remove_redundant_groups (index_groups_sorted : List ScoredGroup) : List ScoredGroup :=
  rrgAux (index_groups_sorted.length + 1) index_groups_sorted [] 0

/- ---------------------------------------------------------------------
   finance_tools.create_tolerance_group / manipulate_groups / process_groups
--------------------------------------------------------------------- -/

/-- finance_tools.create_tolerance_group: initialise one empty dict per
distinct candidate price, then for every ordered pair of candidates within
tolerance record the second candidate under the first one's price key. -/
def create_tolerance_group (possible_levels_dict : List (Nat × ℚ))
    (tolerance_function : ℚ → ℚ → Bool) : List (ℚ × PyDict) :=
  let init := possible_levels_dict.foldl (fun acc p => qdictInsert p.2 [] acc) []
  possible_levels_dict.foldl
    (fun acc p1 =>
      possible_levels_dict.foldl
        (fun acc2 p2 =>
          if tolerance_function p1.2 p2.2 then
            qdictModify p1.2 (fun d => ndictInsert p2.1 p2.2 d) acc2
          else acc2)
        acc)
    init

/-- finance_tools.remove_duplicates: keep the first occurrence of each
tuple, membership tested with Python ==. -/
def remove_duplicates (values_list : List ScoredGroup) : List ScoredGroup :=
  values_list.foldl
    (fun acc g => if acc.any (fun h => groupBeq h g) then acc else acc ++ [g])
    []

/-- Stable insertion used to model Python sorted(..., reverse=True,
key=lambda x: x[0]): a new tuple goes after all tuples with touch count
greater than or equal to its own. -/
def insertGroupDesc (a : ScoredGroup) : List ScoredGroup → List ScoredGroup
  | [] => [a]
  | b :: l => if b.1 < a.1 then a :: b :: l else b :: insertGroupDesc a l

/-- Python sorted(reverse=True, key=fst): stable descending sort. -/
def sortGroupsDesc (l : List ScoredGroup) : List ScoredGroup :=
  l.foldl (fun acc a => insertGroupDesc a acc) []

/-- finance_tools.manipulate_groups: keep the dict values with at least 3
touches paired with their size, drop duplicates, sort by touch count
descending. -/
def manipulate_groups (tolerance_groups : List (ℚ × PyDict)) : List ScoredGroup :=
  let index_groups :=
    ((tolerance_groups.map Prod.snd).filter (fun v => decide (3 ≤ v.length))).map
      (fun v => (v.length, v))
  sortGroupsDesc (remove_duplicates index_groups)

/-- finance_tools.process_groups: tolerance grouping, manipulation, then
redundancy removal. -/
def process_groups (series : List ℚ) (possible_levels_values : List (Nat × ℚ)) :
    List ScoredGroup :=
  let within_tolerance := create_tolerance_function series
  let tolerance_groups := create_tolerance_group possible_levels_values within_tolerance
  let index_groups_sorted := manipulate_groups tolerance_groups
  remove_redundant_groups index_groups_sorted

/- ---------------------------------------------------------------------
   finance_tools.is_support_valid / is_support_broken and the resistance
   mirrors
--------------------------------------------------------------------- -/

/-- Insertion for Python sorted(dates, reverse=True) on day numbers. -/
def insertNatDesc (a : Nat) : List Nat → List Nat
  | [] => [a]
  | b :: l => if b < a then a :: b :: l else b :: insertNatDesc a l

/-- Python sorted(list, reverse=True) on day numbers. -/
def pySortDescNat (l : List Nat) : List Nat :=
  l.foldl (fun acc a => insertNatDesc a acc) []

/-- finance_tools.is_support_valid on the rows of the (renamed) table.
The empty-dates branch is unreachable for a level with at least one touch
(Python would raise IndexError there). -/
def is_support_valid (level : ScoredGroup) (table : List (Nat × ℚ)) : Bool :=
  match pySortDescNat (level.2.map Prod.fst) with
  | [] => true
  | mr :: rest =>
    let least_recent_date := (mr :: rest).getLast (List.cons_ne_nil mr rest)
    let avg_price := listMean (level.2.map Prod.snd)
    let tolerance := calculate_tolerance (table.map Prod.snd)
    let invalid_data := table.filter
      (fun r => decide (r.2 < avg_price - tolerance) &&
        decide (least_recent_date ≤ r.1) && decide (r.1 ≤ mr))
    invalid_data.isEmpty

/-- finance_tools.is_resistance_valid (mirror of is_support_valid). -/
def is_resistance_valid (level : ScoredGroup) (table : List (Nat × ℚ)) : Bool :=
  match pySortDescNat (level.2.map Prod.fst) with
  | [] => true
  | mr :: rest =>
    let least_recent_date := (mr :: rest).getLast (List.cons_ne_nil mr rest)
    let avg_price := listMean (level.2.map Prod.snd)
    let tolerance := calculate_tolerance (table.map Prod.snd)
    let invalid_data := table.filter
      (fun r => decide (r.2 > avg_price + tolerance) &&
        decide (least_recent_date ≤ r.1) && decide (r.1 ≤ mr))
    invalid_data.isEmpty

/-- finance_tools.is_support_broken.  Returns (is_breached, breach_data).
The empty-dates branch is unreachable for a touched level. -/
def is_support_broken (level : ScoredGroup) (table : List (Nat × ℚ)) :
    Bool × List (Nat × ℚ) :=
  match pySortDescNat (level.2.map Prod.fst) with
  | [] => (false, [])
  | mr :: _ =>
    let avg_price := listMean (level.2.map Prod.snd)
    let tolerance := calculate_tolerance (table.map Prod.snd)
    let breach_data := table.filter
      (fun r => decide (r.2 < avg_price - tolerance) && decide (mr < r.1))
    (!breach_data.isEmpty, breach_data)

/-- finance_tools.is_resistance_broken (mirror of is_support_broken). -/
def is_resistance_broken (level : ScoredGroup) (table : List (Nat × ℚ)) :
    Bool × List (Nat × ℚ) :=
  match pySortDescNat (level.2.map Prod.fst) with
  | [] => (false, [])
  | mr :: _ =>
    let avg_price := listMean (level.2.map Prod.snd)
    let tolerance := calculate_tolerance (table.map Prod.snd)
    let breach_data := table.filter
      (fun r => decide (r.2 > avg_price + tolerance) && decide (mr < r.1))
    (!breach_data.isEmpty, breach_data)

/- ---------------------------------------------------------------------
   Explicit column-name state for the DataFrame argument (the four
   validator functions assign table.columns = ['date', 'price'] on the
   caller's table)
--------------------------------------------------------------------- -/

/-- A two-column pandas DataFrame with its mutable column names. -/
structure PTable where
  cols : List String
  rows : List (Nat × ℚ)

/-- The in-place assignment table.columns = ['date', 'price'].  (Python
requires the table to have exactly two columns; with more or fewer it
raises instead.) -/
def set_table_columns (t : PTable) : PTable :=
  { cols := [ "date", "price"], rows := t.rows }

/-- is_support_valid with the table's column-name state passed explicitly:
the result is returned together with the state of the caller's table after
the call. -/
def is_support_valid_df (level : ScoredGroup) (t : PTable) : Bool × PTable :=
  let t2 := set_table_columns t
  (is_support_valid level t2.rows, t2)

/-- is_resistance_valid with explicit table state. -/
def is_resistance_valid_df (level : ScoredGroup) (t : PTable) : Bool × PTable :=
  let t2 := set_table_columns t
  (is_resistance_valid level t2.rows, t2)

/-- is_support_broken with explicit table state. -/
def is_support_broken_df (level : ScoredGroup) (t : PTable) :
    (Bool × List (Nat × ℚ)) × PTable :=
  let t2 := set_table_columns t
  (is_support_broken level t2.rows, t2)

/-- is_resistance_broken with explicit table state. -/
def is_resistance_broken_df (level : ScoredGroup) (t : PTable) :
    (Bool × List (Nat × ℚ)) × PTable :=
  let t2 := set_table_columns t
  (is_resistance_broken level t2.rows, t2)

/- ---------------------------------------------------------------------
   The Support / Resistance record (finance_tools.Support.__init__; the
   Resistance class inherits this constructor unchanged)
--------------------------------------------------------------------- -/

/-- The consecutive differences computed by the loop over
list(data_tuple[1].keys()): dates_list[i+1] - dates_list[i] in days,
in the dict's insertion order. -/
def consecutive_gaps (dates_list : List Nat) : List ℤ :=
  (dates_list.zip dates_list.tail).map (fun p => (p.2 : ℤ) - (p.1 : ℤ))

/-- Stable insertion for pandas sort_values(by='date') on (date, price)
rows: a new row goes after all rows with date less than or equal to its
own. -/
def insertPairAsc (a : Nat × ℚ) : List (Nat × ℚ) → List (Nat × ℚ)
  | [] => [a]
  | b :: l => if a.1 < b.1 then a :: b :: l else b :: insertPairAsc a l

/-- pandas DataFrame.sort_values(by='date'): stable ascending sort. -/
def pySortPairsAsc (l : List (Nat × ℚ)) : List (Nat × ℚ) :=
  l.foldl (fun acc a => insertPairAsc a acc) []

/-- The instance data of a finance_tools.Support (and, by inheritance,
Resistance) object.  data_dict and breach_data_dict are display-only
re-renderings of data and breach_data and are omitted. -/
structure SupportObj where
  stock_name : String
  num_touches : Nat
  data : List (Nat × ℚ)
  most_recents : Nat × ℚ
  avg : ℚ
  status : ℚ
  time_period_int : ℤ
  days_since_last_tested : ℤ
  num_days_bw_tests : List ℤ
  is_breached : Bool
  breach_data : List (Nat × ℚ)

/-- finance_tools.Support.__init__.  The module-level current day
(datetime.date.today()) is passed explicitly as `today`. -/
def mkSupport (data_tuple : Nat × List (Nat × ℚ)) (is_breached : Bool)
    (breach_data : List (Nat × ℚ)) (most_recents : Nat × ℚ)
    (stock_name : String) (today : Nat) : SupportObj :=
  let df := pySortPairsAsc data_tuple.2
  let avg := listMean (df.map Prod.snd)
  let time_period_int : ℤ :=
    match df with
    | [] => 0
    | a :: t => (((a :: t).getLast (List.cons_ne_nil a t)).1 : ℤ) - (a.1 : ℤ)
  let days_since : ℤ :=
    match df with
    | [] => 0
    | a :: t => (today : ℤ) - (((a :: t).getLast (List.cons_ne_nil a t)).1 : ℤ)
  { stock_name := stock_name
    num_touches := data_tuple.1
    data := df
    most_recents := most_recents
    avg := avg
    status := most_recents.2 - avg
    time_period_int := time_period_int
    days_since_last_tested := days_since
    num_days_bw_tests := consecutive_gaps (data_tuple.2.map Prod.fst)
    is_breached := is_breached
    breach_data := breach_data }

/- ---------------------------------------------------------------------
   finance_tools.Stock.__init__
--------------------------------------------------------------------- -/

/-- Stable insertion for Python sorted(levels, key=lambda x: x.avg): a new
level goes after all levels with average less than or equal to its own. -/
def insertSupAsc (a : SupportObj) : List SupportObj → List SupportObj
  | [] => [a]
  | b :: l => if a.avg < b.avg then a :: b :: l else b :: insertSupAsc a l

/-- Python sorted(levels, key=lambda x: x.avg): stable ascending sort. -/
def sortSupportsByAvg (l : List SupportObj) : List SupportObj :=
  l.foldl (fun acc a => insertSupAsc a acc) []

/-- The last element of the list attaining the maximal avg, computed by a
left fold (specification-side characterisation of sorted(...)[-1]). -/
def lastMaxAvg (l : List SupportObj) : Option SupportObj :=
  l.foldl
    (fun o a =>
      match o with
      | none => some a
      | some m => if m.avg ≤ a.avg then some a else some m)
    none

/-- The instance data of a finance_tools.Stock object. -/
structure StockObj where
  stock_name : String
  supports : List SupportObj
  resistances : List SupportObj
  final_support : Option SupportObj
  final_resistance : Option SupportObj
  is_range_bound : Bool
  range_width : Option ℚ

/-- finance_tools.Stock.__init__.  A Python call with supports=None or
resistances=None behaves exactly like the empty list (both are falsy), so
the embedding takes the two lists directly. -/
def mkStock (stock_name : String) (supports resistances : List SupportObj) : StockObj :=
  let final_support := (sortSupportsByAvg supports).getLast?
  let final_resistance := (sortSupportsByAvg resistances).getLast?
  match final_support, final_resistance with
  | some s, some r =>
    { stock_name := stock_name
      supports := supports
      resistances := resistances
      final_support := some s
      final_resistance := some r
      is_range_bound := true
      range_width := some (r.avg - s.avg) }
  | fs, fr =>
    { stock_name := stock_name
      supports := supports
      resistances := resistances
      final_support := fs
      final_resistance := fr
      is_range_bound := false
      range_width := none }

/- ---------------------------------------------------------------------
   Python string primitives used by process_conditions (strings are
   modelled as lists of characters)
--------------------------------------------------------------------- -/

/-- Is the first list a prefix of the second? -/
def pyIsPrefix : List Char → List Char → Bool
  | [], _ => true
  | _ :: _, [] => false
  | a :: pa, b :: sb => (a == b) && pyIsPrefix pa sb

/-- Python substring containment (pat in s). -/
def pyContains (s pat : List Char) : Bool :=
  (List.range (s.length + 1)).any (fun i => pyIsPrefix pat (s.drop i))

/-- Fuel-indexed worker for Python str.replace (replace every
non-overlapping occurrence, scanning left to right).  The fuel is the
length of the string, which bounds the number of steps. -/
def pyReplaceAux : Nat → List Char → List Char → List Char → List Char
  | 0, s, _, _ => s
  | fuel + 1, s, pat, rep =>
    match s with
    | [] => []
    | a :: rest =>
      if !pat.isEmpty && pyIsPrefix pat s then
        rep ++ pyReplaceAux fuel (s.drop pat.length) pat rep
      else a :: pyReplaceAux fuel rest pat rep

/-- Python str.replace(pat, rep) for a nonempty pattern. -/
def pyReplace (s pat rep : List Char) : List Char :=
  pyReplaceAux s.length s pat rep

/-- Python str.find for a single character on a suffix: index of the first
occurrence, none standing for -1. -/
def pyFindChar (s : List Char) (c : Char) : Option Nat :=
  match s with
  | [] => none
  | a :: t => if a = c then some 0 else (pyFindChar t c).map (· + 1)

/-- mytools.find_all, including its off-by-one scan bound
range(len(string) - len(substring)), which skips an occurrence that ends
exactly at the end of the string. -/
def find_all (substring string : List Char) (lasts : Bool) : List Nat :=
  let firsts := (List.range (string.length - substring.length)).filter
    (fun i => pyIsPrefix substring (string.drop i))
  if lasts then firsts.map (fun i => i + substring.length - 1) else firsts

/- ---------------------------------------------------------------------
   finance_tools.process_num_days_bw_tests / process_conditions
--------------------------------------------------------------------- -/

/-- One iteration of the occurrence loop of process_num_days_bw_tests:
wrap occurrence k of the pattern in all( ... ).  Out-of-range occurrence
indices default to 0 (Python would raise IndexError there; the caller
never lets that happen). -/
def pndStep (condition pat : List Char) (k : Nat) : List Char :=
  let firsts := find_all pat condition false
  let lasts := find_all pat condition true
  let first_index := firsts.getD k 0
  let last_index := lasts.getD k 0
  match pyFindChar (condition.drop (last_index + 1)) ' ' with
  | none =>
    condition.take first_index ++ "all(".data ++ pat ++
      condition.drop (last_index + 1) ++ ")".data
  | some j =>
    condition.take first_index ++ "all(".data ++ pat ++
      (condition.drop (last_index + 1)).take j ++ ")".data ++
      condition.drop (j + last_index + 1)

/-- The occurrence loop of process_num_days_bw_tests: n remaining
iterations, current occurrence index k. -/
def pndIter : List Char → List Char → Nat → Nat → List Char
  | condition, _, _, 0 => condition
  | condition, pat, k, n + 1 => pndIter (pndStep condition pat k) pat (k + 1) n

/-- finance_tools.process_num_days_bw_tests.  Falls off the end (None)
when the pattern does not occur; the caller only invokes it under the same
containment guard. -/
def process_num_days_bw_tests (condition_str lt op : List Char) :
    Option (List Char) :=
  let pat := lt ++ ".num_days_bw_tests ".data ++ op ++ " ".data
  if pyContains condition_str pat then
    some (pndIter condition_str pat 0 (find_all pat condition_str false).length)
  else none

/-- A guarded replace, as in: if pat in condition: condition =
condition.replace(pat, rep). -/
def aliasStep (c pat rep : List Char) : List Char :=
  if pyContains c pat then pyReplace c pat rep else c

/-- The guarded call of process_num_days_bw_tests for one comparison
operator. -/
def pndBranch (c lt op : List Char) : List Char :=
  if pyContains c (lt ++ ".num_days_bw_tests ".data ++ op ++ " ".data) then
    (process_num_days_bw_tests c lt op).getD c
  else c

/-- The attribute names prefixed with '{level_type}.' by
process_conditions, in source order. -/
def attrNames : List (List Char) :=
  [ "avg".data, "num_touches".data, "time_period_int".data,
    "days_since_last_tested".data, "num_days_bw_tests".data, "status".data]

/-- The ValueError messages of process_conditions (the quotes inside the
original messages are omitted). -/
def errNumEq : List Char :=
  "Warning: == operator can not be used with the num_days_bw_tests parameter".data

def errNumNe : List Char :=
  "Warning: != operator can not be used with the num_days_bw_tests parameter".data

def errAvgEq : List Char :=
  "Warning: Average values can not be compared using = operator.".data

def errAvgNe : List Char :=
  "Warning: Average values can not be compared using != operator.".data

def errAvgGe : List Char :=
  "Warning: Average values can not be compared using >= operator. Use > instead.".data

def errAvgLe : List Char :=
  "Warning: Average values can not be compared using <= operator. Use < instead.".data

/-- The body of the for-loop of finance_tools.process_conditions for one
condition string: lowercase, alias replacement, attribute prefixing, the
'=' to '==' rewrite, the increasing/decreasing rewrites, the
num_days_bw_tests all(...) wrapping, then the ValueError checks. -/
def processOneCondition (lt cond : List Char) : Except (List Char) (List Char) :=
  let c0 := cond.map Char.toLower
  let c1 := aliasStep c0 "nums".data "num_touches".data
  let c2 := aliasStep c1 "duration".data "time_period_int".data
  let c3 := aliasStep c2 "average".data "avg".data
  let c4 := aliasStep c3 "num_days_since".data "days_since_last_tested".data
  let c5 := aliasStep c4 "days_between".data "num_days_bw_tests".data
  let c6 := attrNames.foldl (fun c attr => pyReplace c attr (lt ++ ".".data ++ attr)) c5
  let c7 :=
    if !(pyContains c6 "==".data) && !(pyContains c6 ">=".data) &&
        !(pyContains c6 "<=".data) && !(pyContains c6 "!=".data) &&
        pyContains c6 "=".data then
      pyReplace c6 "=".data "==".data
    else c6
  let c8 := aliasStep c7 (lt ++ ".num_days_bw_tests.increasing".data)
    ( "is_increasing(".data ++ lt ++ ".num_days_bw_tests)".data)
  let c9 := aliasStep c8 (lt ++ ".num_days_bw_tests.decreasing".data)
    ( "is_decreasing(".data ++ lt ++ ".num_days_bw_tests)".data)
  let c10 := pndBranch c9 lt ">=".data
  let c11 := pndBranch c10 lt "<=".data
  let c12 := pndBranch c11 lt "<".data
  let c13 := pndBranch c12 lt ">".data
  if pyContains c13 (lt ++ ".num_days_bw_tests == ".data) then Except.error errNumEq
  else if pyContains c13 (lt ++ ".num_days_bw_tests != ".data) then Except.error errNumNe
  else if pyContains c13 (lt ++ ".avg ==".data) then Except.error errAvgEq
  else if pyContains c13 (lt ++ ".avg !=".data) then Except.error errAvgNe
  else if pyContains c13 (lt ++ ".avg >=".data) then Except.error errAvgGe
  else if pyContains c13 (lt ++ ".avg <=".data) then Except.error errAvgLe
  else Except.ok c13

/-- finance_tools.process_conditions: process the condition strings in
order; the first ValueError aborts the whole call. -/
def process_conditions (conditions : List (List Char)) (lt : List Char) :
    Except (List Char) (List (List Char)) :=
  match conditions with
  | [] => Except.ok []
  | c :: rest =>
    match processOneCondition lt c with
    | Except.error e => Except.error e
    | Except.ok c2 =>
      match process_conditions rest lt with
      | Except.error e => Except.error e
      | Except.ok l => Except.ok (c2 :: l)

/- ---------------------------------------------------------------------
   finance_tools.filter_supports / filter_resistances.  The eval() of a
   processed condition string on a level object is abstracted as the
   valuation evalCond.  The record loop keeps a level iff its is_breached
   flag passes the (possibly bypassed) breach check and every processed
   condition evaluates to True; popping the conditions from the end of a
   copy and breaking at the first failure is exactly that conjunction.
--------------------------------------------------------------------- -/

def supportLT : List Char := "support".data

def resistanceLT : List Char := "resistance".data

/-- finance_tools.filter_supports. -/
def filter_supports (supports : List SupportObj) (args : List (List Char))
    (evalCond : List Char → SupportObj → Bool)
    (is_breached : Bool) (ignore_is_breach : Bool) :
    Except (List Char) (List SupportObj) :=
  match process_conditions args supportLT with
  | Except.error e => Except.error e
  | Except.ok conditions_list =>
    Except.ok (supports.filter
      (fun s => (ignore_is_breach || (s.is_breached == is_breached)) &&
        conditions_list.all (fun c => evalCond c s)))

/-- finance_tools.filter_resistances (mirror of filter_supports with
level_type 'resistance'). -/
def filter_resistances (resistances : List SupportObj) (args : List (List Char))
    (evalCond : List Char → SupportObj → Bool)
    (is_breached : Bool) (ignore_is_breach : Bool) :
    Except (List Char) (List SupportObj) :=
  match process_conditions args resistanceLT with
  | Except.error e => Except.error e
  | Except.ok conditions_list =>
    Except.ok (resistances.filter
      (fun s => (ignore_is_breach || (s.is_breached == is_breached)) &&
        conditions_list.all (fun c => evalCond c s)))

/- ---------------------------------------------------------------------
   Concrete instances used for counterexamples and witnesses
--------------------------------------------------------------------- -/

/-- Five touches at dates 1, 2, 3, 8, 9. -/
def cexA : ScoredGroup := (5, [(1, 10), (2, 10), (3, 10), (8, 10), (9, 10)])

/-- Four touches at dates 2, 3, 4, 5: shares dates 2, 3 with cexA and
dates 4, 5 with cexC. -/
def cexB : ScoredGroup := (4, [(2, 20), (3, 20), (4, 20), (5, 20)])

/-- Three touches at dates 4, 5, 6: no date in common with cexA. -/
def cexC : ScoredGroup := (3, [(4, 30), (5, 30), (6, 30)])

/-- A single well-formed scored group with three touches. -/
def wG3 : ScoredGroup := (3, [(1, 10), (2, 10), (3, 10)])

/-- A candidate extrema mapping with three touches at the same price. -/
def wPossible : List (Nat × ℚ) := [(1, 10), (2, 10), (3, 10)]

/-- A price series with zero spread (tolerance 3). -/
def wSeries : List ℚ := [10, 10, 10]

/-- A date/price table: flat at 10 over the touch span, then a deep drop
at date 4. -/
def wTableA : List (Nat × ℚ) := [(1, 10), (2, 10), (3, 10), (4, 2)]

/-- The data tuple of the spec scenario: touches (0, 100), (10, 102),
(25, 99). -/
def wTouches : Nat × List (Nat × ℚ) := (3, [(0, 100), (10, 102), (25, 99)])

/-- An unbreached support record with average 90. -/
def sObj90 : SupportObj :=
  { stock_name := "W", num_touches := 3, data := [], most_recents := (0, 0),
    avg := 90, status := 0, time_period_int := 0, days_since_last_tested := 0,
    num_days_bw_tests := [], is_breached := false, breach_data := [] }

/-- An unbreached resistance record with average 110. -/
def rObj110 : SupportObj :=
  { stock_name := "W", num_touches := 3, data := [], most_recents := (0, 0),
    avg := 110, status := 0, time_period_int := 0, days_since_last_tested := 0,
    num_days_bw_tests := [], is_breached := false, breach_data := [] }

/-- A breached record. -/
def sObjBr : SupportObj :=
  { stock_name := "W", num_touches := 4, data := [], most_recents := (0, 0),
    avg := 50, status := 0, time_period_int := 0, days_since_last_tested := 0,
    num_days_bw_tests := [], is_breached := true, breach_data := [(9, 40)] }

/-- The condition string of the spec example, and its processed form. -/
def condNums : List Char := "nums > 3".data

def pCondNums : List Char := "support.num_touches > 3".data

/-- A valuation that satisfies every condition string. -/
def evalTrue : List Char → SupportObj → Bool := fun _ _ => true

/-- A caller-side table state with column names other than date/price. -/
def wPT : PTable := { cols := [ "x", "y"], rows := [(1, 5)] }

/- ---------------------------------------------------------------------
   Helper lemmas: Python dict equality on well-formed dicts
--------------------------------------------------------------------- -/

theorem mem_of_lookup_eq_some {k : Nat} {v : ℚ} {d : PyDict}
    (h : List.lookup k d = some v) : (k, v) ∈ d := by
  induction d with
  | nil => simp at h
  | cons a t ih =>
    cases a with
    | mk ka va =>
      rw [List.lookup_cons] at h
      split at h
      · next heq =>
        have hk : k = ka := eq_of_beq heq
        injection h with hv
        rw [← hk, ← hv]
        exact List.mem_cons_self _ _
      · exact List.mem_cons_of_mem _ (ih h)

theorem lookup_cons_ne {k : Nat} {a : Nat × ℚ} {t : PyDict} (h : k ≠ a.1) :
    List.lookup k (a :: t) = List.lookup k t := by
  cases a with
  | mk ka va =>
    rw [List.lookup_cons]
    split
    · next heq => exact absurd (eq_of_beq heq) h
    · rfl

theorem lookup_self_of_sorted {d : PyDict}
    (h : (d.map Prod.fst).Pairwise (· < ·)) :
    ∀ p ∈ d, List.lookup p.1 d = some p.2 := by
  induction d with
  | nil => simp
  | cons a t ih =>
    intro p hp
    simp only [List.map_cons, List.pairwise_cons] at h
    rcases List.mem_cons.mp hp with rfl | hpt
    · cases p
      simp [List.lookup]
    · have hne : p.1 ≠ a.1 := by
        have := h.1 p.1 (List.mem_map_of_mem Prod.fst hpt)
        omega
      rw [lookup_cons_ne hne]
      exact ih h.2 p hpt

theorem dict_ext_of_lookups (d1 : PyDict) :
    ∀ d2 : PyDict, (d1.map Prod.fst).Pairwise (· < ·) →
    (d2.map Prod.fst).Pairwise (· < ·) →
    (∀ p ∈ d1, List.lookup p.1 d2 = some p.2) →
    (∀ p ∈ d2, List.lookup p.1 d1 = some p.2) → d1 = d2 := by
  induction d1 with
  | nil =>
    intro d2 _ _ _ hb
    cases d2 with
    | nil => rfl
    | cons b t2 => exact absurd (hb b (List.mem_cons_self b t2)) (by simp)
  | cons a t1 ih =>
    intro d2 h1 h2 hf hb
    cases d2 with
    | nil => exact absurd (hf a (List.mem_cons_self a t1)) (by simp)
    | cons b t2 =>
        have hmem1 : (a.1, a.2) ∈ b :: t2 := mem_of_lookup_eq_some (hf a (by simp))
        have hmem2 : (b.1, b.2) ∈ a :: t1 := mem_of_lookup_eq_some (hb b (by simp))
        simp only [List.map_cons, List.pairwise_cons] at h1 h2
        have hba : b.1 ≤ a.1 := by
          rcases List.mem_cons.mp hmem1 with he | ht
          · have : a.1 = b.1 := by rw [← he]
            omega
          · have := h2.1 a.1 (List.mem_map_of_mem Prod.fst ht)
            omega
        have hab : a.1 ≤ b.1 := by
          rcases List.mem_cons.mp hmem2 with he | ht
          · have : b.1 = a.1 := by rw [← he]
            omega
          · have := h1.1 b.1 (List.mem_map_of_mem Prod.fst ht)
            omega
        have hkey : a.1 = b.1 := le_antisymm hab hba
        have hval : a.2 = b.2 := by
          have hla := hf a (List.mem_cons_self a t1)
          have hlb : List.lookup a.1 (b :: t2) = some b.2 := by
            cases b with
            | mk kb vb =>
              rw [List.lookup_cons]
              have hbeq : (a.1 == kb) = true := beq_iff_eq.mpr hkey
              rw [hbeq]
          rw [hlb] at hla
          exact (Option.some_inj.mp hla).symm
        have hhead : a = b := Prod.ext hkey hval
        have htail : t1 = t2 := by
          apply ih t2 h1.2 h2.2
          · intro p hp
            have hlp := hf p (List.mem_cons_of_mem a hp)
            have hne : p.1 ≠ b.1 := by
              have := h1.1 p.1 (List.mem_map_of_mem Prod.fst hp)
              omega
            rwa [lookup_cons_ne hne] at hlp
          · intro p hp
            have hlp := hb p (List.mem_cons_of_mem b hp)
            have hne : p.1 ≠ a.1 := by
              have := h2.1 p.1 (List.mem_map_of_mem Prod.fst hp)
              omega
            rwa [lookup_cons_ne hne] at hlp
        rw [hhead, htail]

theorem dictBeq_iff {d1 d2 : PyDict}
    (h1 : (d1.map Prod.fst).Pairwise (· < ·))
    (h2 : (d2.map Prod.fst).Pairwise (· < ·)) :
    dictBeq d1 d2 = true ↔ d1 = d2 := by
  constructor
  · intro h
    simp only [dictBeq, Bool.and_eq_true, List.all_eq_true, decide_eq_true_eq] at h
    exact dict_ext_of_lookups d1 d2 h1 h2 h.1 h.2
  · rintro rfl
    simp only [dictBeq, Bool.and_eq_true, List.all_eq_true, decide_eq_true_eq]
    exact ⟨lookup_self_of_sorted h1, lookup_self_of_sorted h1⟩

theorem groupBeq_iff {g1 g2 : ScoredGroup} (h1 : WFg g1) (h2 : WFg g2) :
    groupBeq g1 g2 = true ↔ g1 = g2 := by
  unfold groupBeq
  rw [Bool.and_eq_true, decide_eq_true_eq, dictBeq_iff h1 h2]
  constructor
  · rintro ⟨ha, hb⟩
    exact Prod.ext ha hb
  · rintro rfl
    exact ⟨rfl, rfl⟩

theorem keys_nodup_of_WFg {g : ScoredGroup} (h : WFg g) :
    (g.2.map Prod.fst).Nodup :=
  h.imp (fun hlt => Nat.ne_of_lt hlt)

theorem countP_mem_comm {l1 l2 : List Nat} (h1 : l1.Nodup) (h2 : l2.Nodup) :
    l1.countP (fun k => l2.contains k) = l2.countP (fun k => l1.contains k) := by
  rw [List.countP_eq_length_filter, List.countP_eq_length_filter]
  have hn1 : (l1.filter (fun k => l2.contains k)).Nodup := h1.filter _
  have hn2 : (l2.filter (fun k => l1.contains k)).Nodup := h2.filter _
  rw [← List.toFinset_card_of_nodup hn1, ← List.toFinset_card_of_nodup hn2]
  congr 1
  ext k
  simp only [List.mem_toFinset, List.mem_filter, List.contains, List.elem_eq_mem,
    decide_eq_true_eq]
  exact and_comm

theorem at_least_2_common_comm {d1 d2 : PyDict}
    (h1 : (d1.map Prod.fst).Nodup) (h2 : (d2.map Prod.fst).Nodup) :
    at_least_2_common d1 d2 = at_least_2_common d2 d1 := by
  unfold at_least_2_common
  rw [countP_mem_comm h1 h2]

/- ---------------------------------------------------------------------
   Helper lemmas: the removal pass of remove_redundant_groups
--------------------------------------------------------------------- -/

theorem pyRemove_sublist (y : ScoredGroup) (l : List ScoredGroup) :
    (pyRemove y l).Sublist l := by
  induction l with
  | nil => simp [pyRemove]
  | cons x xs ih =>
    rw [pyRemove]
    split
    · exact List.sublist_cons_self x xs
    · exact ih.cons₂ x

theorem applyRemovals_sublist (rem : List ScoredGroup) :
    ∀ l : List ScoredGroup, (applyRemovals rem l).Sublist l := by
  induction rem with
  | nil => intro l; exact List.Sublist.refl l
  | cons y ys ih =>
    intro l
    exact (ih (pyRemove y l)).trans (pyRemove_sublist y l)

theorem applyRemovals_append (r1 r2 : List ScoredGroup) (l : List ScoredGroup) :
    applyRemovals (r1 ++ r2) l = applyRemovals r2 (applyRemovals r1 l) := by
  unfold applyRemovals
  exact List.foldl_append _ _ _ _

theorem pyRemove_eq_self {y : ScoredGroup} {l : List ScoredGroup}
    (h : ∀ e ∈ l, groupBeq e y = false) : pyRemove y l = l := by
  induction l with
  | nil => rfl
  | cons x xs ih =>
    rw [pyRemove, h x (List.mem_cons_self x xs)]
    simp only [Bool.false_eq_true, if_false]
    rw [ih (fun e he => h e (List.mem_cons_of_mem x he))]

theorem applyRemovals_eq_self {rem : List ScoredGroup} {l : List ScoredGroup}
    (h : ∀ y ∈ rem, ∀ e ∈ l, groupBeq e y = false) : applyRemovals rem l = l := by
  induction rem with
  | nil => rfl
  | cons y ys ih =>
    unfold applyRemovals
    rw [List.foldl_cons, pyRemove_eq_self (h y (List.mem_cons_self y ys))]
    exact ih (fun z hz => h z (List.mem_cons_of_mem y hz))

theorem applyRemovals_cons_skip {rem : List ScoredGroup} {a : ScoredGroup}
    {l : List ScoredGroup} (h : ∀ y ∈ rem, groupBeq a y = false) :
    applyRemovals rem (a :: l) = a :: applyRemovals rem l := by
  induction rem generalizing l with
  | nil => rfl
  | cons y ys ih =>
    unfold applyRemovals
    rw [List.foldl_cons, List.foldl_cons]
    rw [show pyRemove y (a :: l) = a :: pyRemove y l from by
      rw [pyRemove, h y (List.mem_cons_self y ys)]
      simp]
    exact ih (fun z hz => h z (List.mem_cons_of_mem y hz))

/-- The removal pass over a filter of the list itself deletes exactly the
filtered occurrences, provided every group in the list is well-formed (so
that Python tuple equality agrees with syntactic equality). -/
theorem applyRemovals_filter {l : List ScoredGroup} (p : ScoredGroup → Bool)
    (hW : ∀ g ∈ l, WFg g) :
    applyRemovals (l.filter p) l = l.filter (fun y => !(p y)) := by
  induction l with
  | nil => rfl
  | cons a t ih =>
    have hWa : WFg a := hW a (List.mem_cons_self a t)
    have hWt : ∀ g ∈ t, WFg g := fun g hg => hW g (List.mem_cons_of_mem a hg)
    by_cases hpa : p a = true
    · rw [List.filter_cons_of_pos hpa]
      have hstep : pyRemove a (a :: t) = t := by
        rw [pyRemove, (groupBeq_iff hWa hWa).mpr rfl]
        simp
      unfold applyRemovals
      rw [List.foldl_cons]
      show applyRemovals (t.filter p) (pyRemove a (a :: t)) = _
      rw [hstep, ih hWt, List.filter_cons_of_neg (by simp [hpa])]
    · have hpa' : p a = false := Bool.eq_false_iff.mpr hpa
      rw [List.filter_cons_of_neg (by simp [hpa']), applyRemovals_cons_skip, ih hWt,
        List.filter_cons_of_pos (by simp [hpa'])]
      intro y hy
      have hyt : y ∈ t := List.mem_of_mem_filter hy
      have hpy : p y = true := List.of_mem_filter hy
      by_cases hay : a = y
      · rw [hay] at hpa'
        rw [hpa'] at hpy
        exact absurd hpy (by simp)
      · exact Bool.eq_false_iff.mpr (fun hb => hay ((groupBeq_iff hWa (hWt y hyt)).mp hb))

theorem rrgAux_zero {lst rem : List ScoredGroup} {i : Nat} :
    rrgAux 0 lst rem i = lst := rfl

theorem rrgAux_succ_none {fuel : Nat} {lst rem : List ScoredGroup} {i : Nat}
    (h : lst[i]? = none) : rrgAux (fuel + 1) lst rem i = lst := by
  rw [rrgAux, h]

theorem rrgAux_succ_some {fuel : Nat} {lst rem : List ScoredGroup} {i : Nat}
    {x : ScoredGroup} (h : lst[i]? = some x) :
    rrgAux (fuel + 1) lst rem i =
      rrgAux fuel
        (applyRemovals (rem ++ lst.filter (fun y => rrgCond x y)) lst)
        (rem ++ lst.filter (fun y => rrgCond x y)) (i + 1) := by
  rw [rrgAux, h]

theorem rrgAux_sublist (fuel : Nat) :
    ∀ (lst rem : List ScoredGroup) (i : Nat), (rrgAux fuel lst rem i).Sublist lst := by
  induction fuel with
  | zero => intro lst rem i; exact List.Sublist.refl lst
  | succ fuel ih =>
    intro lst rem i
    cases hx : lst[i]? with
    | none =>
      rw [rrgAux_succ_none hx]
    | some x =>
      rw [rrgAux_succ_some hx]
      exact (ih _ _ _).trans (applyRemovals_sublist _ lst)

/-- The no-skip invariant for remove_redundant_groups, stated on the
decomposition lst = visited ++ rest with the cursor at position
visited.length: every visited group overlaps no other group of the list,
the accumulated remove_list has been applied exhaustively, and the fuel
dominates the remaining cursor distance.  The run then returns a sublist
of the input in which no two distinct groups share two or more dates. -/
theorem rrgAux_invariant (fuel : Nat) :
    ∀ (V R rem : List ScoredGroup),
    (∀ g ∈ V ++ R, WFg g) →
    (∀ x ∈ V, ∀ y ∈ V ++ R, x ≠ y → at_least_2_common x.2 y.2 = false) →
    (∀ y ∈ rem, WFg y ∧ y ∉ V ++ R) →
    R.length ≤ fuel →
    (rrgAux fuel (V ++ R) rem V.length).Sublist (V ++ R) ∧
    (∀ x ∈ rrgAux fuel (V ++ R) rem V.length,
      ∀ y ∈ rrgAux fuel (V ++ R) rem V.length,
      x ≠ y → at_least_2_common x.2 y.2 = false) := by
  induction fuel with
  | zero =>
    intro V R rem hW hA hB hfuel
    have hR : R = [] := List.length_eq_zero.mp (Nat.le_zero.mp hfuel)
    subst hR
    rw [rrgAux_zero]
    exact ⟨List.Sublist.refl _, by simpa using hA⟩
  | succ fuel ih =>
    intro V R rem hW hA hB hfuel
    cases R with
    | nil =>
      have hnone : (V ++ ([] : List ScoredGroup))[V.length]? = none := by
        simp
      rw [rrgAux_succ_none hnone]
      exact ⟨List.Sublist.refl _, by simpa using hA⟩
    | cons x R' =>
      have hsome : (V ++ x :: R')[V.length]? = some x := by
        rw [List.getElem?_append_right (Nat.le_refl V.length)]
        simp
      rw [rrgAux_succ_some hsome]
      have hWx : WFg x := hW x (by simp)
      have hndx := keys_nodup_of_WFg hWx
      -- the collected removals are exactly the overlapping groups of the
      -- tail: the visited prefix and x itself never satisfy the condition
      have hcondV : ∀ z ∈ V, rrgCond x z = false := by
        intro z hz
        unfold rrgCond
        by_cases hxz : x = z
        · rw [(groupBeq_iff hWx (hW z (by simp [hz]))).mpr hxz]
          simp
        · have hzx : z ≠ x := fun h => hxz h.symm
          have h2 := hA z hz x (by simp) hzx
          rw [at_least_2_common_comm (keys_nodup_of_WFg (hW z (by simp [hz]))) hndx] at h2
          rw [h2]
          simp
      have hcondx : rrgCond x x = false := by
        unfold rrgCond
        rw [(groupBeq_iff hWx hWx).mpr rfl]
        simp
      have hfilterV : V.filter (fun y => rrgCond x y) = [] := by
        rw [List.filter_eq_nil_iff]
        intro z hz
        simp [hcondV z hz]
      have hnewRem : (V ++ x :: R').filter (fun y => rrgCond x y) =
          R'.filter (fun y => rrgCond x y) := by
        rw [List.filter_append, hfilterV, List.filter_cons_of_neg (by simp [hcondx])]
        rfl
      -- the removal pass: stale entries are no-ops, fresh entries delete
      -- exactly the overlapping occurrences
      have hstale : applyRemovals rem (V ++ x :: R') = V ++ x :: R' := by
        apply applyRemovals_eq_self
        intro y hy e he
        obtain ⟨hWy, hnot⟩ := hB y hy
        by_cases hey : e = y
        · exact absurd (hey ▸ he) hnot
        · exact Bool.eq_false_iff.mpr (fun hb => hey ((groupBeq_iff (hW e he) hWy).mp hb))
      have hlst' : applyRemovals (rem ++ (V ++ x :: R').filter (fun y => rrgCond x y))
          (V ++ x :: R') =
          V ++ x :: R'.filter (fun y => !(rrgCond x y)) := by
        rw [applyRemovals_append, hstale]
        rw [show (V ++ x :: R').filter (fun y => rrgCond x y) =
          (V ++ x :: R').filter (fun y => rrgCond x y) from rfl]
        rw [applyRemovals_filter (fun y => rrgCond x y) hW]
        rw [List.filter_append, List.filter_cons_of_pos (by simp [hcondx])]
        congr 1
        rw [List.filter_eq_self]
        intro z hz
        simp [hcondV z hz]
      rw [hlst']
      have hcast : V ++ x :: R'.filter (fun y => !(rrgCond x y)) =
          (V ++ [x]) ++ R'.filter (fun y => !(rrgCond x y)) := by
        simp
      have hlen : V.length + 1 = (V ++ [x]).length := by simp
      -- re-establish the invariant for the recursive call
      have hW2 : ∀ g ∈ (V ++ [x]) ++ R'.filter (fun y => !(rrgCond x y)), WFg g := by
        intro g hg
        apply hW
        rcases List.mem_append.mp hg with h | h
        · rcases List.mem_append.mp h with h' | h'
          · exact List.mem_append_left _ h'
          · simp at h'
            simp [h']
        · have := List.mem_of_mem_filter h
          simp [this]
      have hA2 : ∀ z ∈ V ++ [x],
          ∀ y ∈ (V ++ [x]) ++ R'.filter (fun y => !(rrgCond x y)),
          z ≠ y → at_least_2_common z.2 y.2 = false := by
        intro z hz y hy hzy
        rcases List.mem_append.mp hz with hzV | hzx
        · -- a previously visited group: reuse the invariant
          apply hA z hzV y _ hzy
          rcases List.mem_append.mp hy with h | h
          · rcases List.mem_append.mp h with h' | h'
            · exact List.mem_append_left _ h'
            · simp at h'
              simp [h']
          · have := List.mem_of_mem_filter h
            simp [this]
        · -- z = x: everything surviving the filter no longer overlaps x
          simp at hzx
          subst hzx
          rcases List.mem_append.mp hy with h | h
          · rcases List.mem_append.mp h with h' | h'
            · have hyx : y ≠ z := fun hc => hzy hc.symm
              have h2 := hA y h' z (by simp) hyx
              rwa [at_least_2_common_comm
                (keys_nodup_of_WFg (hW y (by simp [h']))) hndx] at h2
            · simp at h'
              exact absurd h'.symm hzy
          · have hcy : rrgCond z y = false := by
              have := List.of_mem_filter h
              simpa using this
            unfold rrgCond at hcy
            rcases Bool.and_eq_false_iff.mp hcy with hb | h2
            · have hbeq : groupBeq z y = true := by
                cases hgb : groupBeq z y
                · simp [hgb] at hb
                · rfl
              have hyR : y ∈ R' := List.mem_of_mem_filter h
              exact absurd ((groupBeq_iff hWx (hW y (by simp [hyR]))).mp hbeq) hzy
            · exact h2
      have hB2 : ∀ y ∈ rem ++ (V ++ x :: R').filter (fun y => rrgCond x y),
          WFg y ∧ y ∉ (V ++ [x]) ++ R'.filter (fun y => !(rrgCond x y)) := by
        intro y hy
        rcases List.mem_append.mp hy with hyrem | hynew
        · obtain ⟨hWy, hnot⟩ := hB y hyrem
          refine ⟨hWy, fun hc => hnot ?_⟩
          rcases List.mem_append.mp hc with h | h
          · rcases List.mem_append.mp h with h' | h'
            · exact List.mem_append_left _ h'
            · simp at h'
              simp [h']
          · have := List.mem_of_mem_filter h
            simp [this]
        · rw [hnewRem] at hynew
          have hyR : y ∈ R' := List.mem_of_mem_filter hynew
          have hcy : rrgCond x y = true := List.of_mem_filter hynew
          refine ⟨hW y (by simp [hyR]), fun hc => ?_⟩
          rcases List.mem_append.mp hc with h | h
          · rcases List.mem_append.mp h with h' | h'
            · -- y visited would contradict the invariant via the condition
              unfold rrgCond at hcy
              rw [Bool.and_eq_true] at hcy
              obtain ⟨hne, h2⟩ := hcy
              have hxy : x ≠ y := fun hc2 =>
                (by simpa using hne : ¬ groupBeq x y = true)
                  ((groupBeq_iff hWx (hW y (by simp [hyR]))).mpr hc2)
              have := hA y h' x (by simp) (fun hc2 => hxy hc2.symm)
              rw [at_least_2_common_comm
                (keys_nodup_of_WFg (hW y (by simp [hyR]))) hndx] at this
              rw [this] at h2
              exact absurd h2 (by simp)
            · simp at h'
              unfold rrgCond at hcy
              rw [Bool.and_eq_true] at hcy
              exact (by simpa using hcy.1 : ¬ groupBeq x y = true)
                ((groupBeq_iff hWx (hW y (by simp [hyR]))).mpr h'.symm)
          · have hcy' : rrgCond x y = false := by
              have := List.of_mem_filter h
              simpa using this
            rw [hcy] at hcy'
            exact absurd hcy' (by simp)
      have hfuel2 : (R'.filter (fun y => !(rrgCond x y))).length ≤ fuel := by
        have := List.length_filter_le (fun y => !(rrgCond x y)) R'
        simp at hfuel
        omega
      have hrec := ih (V ++ [x]) (R'.filter (fun y => !(rrgCond x y)))
        (rem ++ (V ++ x :: R').filter (fun y => rrgCond x y))
        (by rw [← hcast]; exact fun g hg => hW2 g (hcast ▸ hg))
        (by
          intro z hz y hy hzy
          rw [← hcast] at hy
          exact hA2 z hz y (hcast ▸ hy) hzy)
        (by
          intro y hy
          have := hB2 y hy
          rw [← hcast] at this
          exact ⟨this.1, fun hc => this.2 (hcast ▸ hc)⟩)
        hfuel2
      rw [← hcast, ← hlen] at hrec
      refine ⟨hrec.1.trans ?_, hrec.2⟩
      -- the post-removal list is a sublist of the original one
      have : (V ++ x :: R'.filter (fun y => !(rrgCond x y))).Sublist (V ++ x :: R') := by
        apply List.Sublist.append (List.Sublist.refl V)
        exact (List.filter_sublist R').cons₂ x
      exact this

/-- A list in which no two (syntactically) distinct well-formed groups
share two or more dates passes through the loop of
remove_redundant_groups unchanged: no tuple is ever collected into the
remove_list. -/
theorem rrgAux_fixed (fuel : Nat) :
    ∀ (lst : List ScoredGroup) (i : Nat),
    (∀ g ∈ lst, WFg g) →
    (∀ x ∈ lst, ∀ y ∈ lst, x ≠ y → at_least_2_common x.2 y.2 = false) →
    rrgAux fuel lst [] i = lst := by
  induction fuel with
  | zero => intro lst i _ _; exact rrgAux_zero
  | succ fuel ih =>
    intro lst i hW hP
    cases hx : lst[i]? with
    | none => exact rrgAux_succ_none hx
    | some x =>
      rw [rrgAux_succ_some hx]
      have hxmem : x ∈ lst := by
        have := List.getElem?_eq_some.mp hx
        obtain ⟨hlt, hget⟩ := this
        rw [← hget]
        exact List.getElem_mem hlt
      have hWx : WFg x := hW x hxmem
      have hfilter : lst.filter (fun y => rrgCond x y) = [] := by
        rw [List.filter_eq_nil_iff]
        intro y hy
        unfold rrgCond
        by_cases hxy : x = y
        · rw [(groupBeq_iff hWx (hW y hy)).mpr hxy]
          simp
        · rw [hP x hxmem y hy hxy]
          simp
      rw [hfilter]
      rw [show ([] : List ScoredGroup) ++ ([] : List ScoredGroup) = [] from rfl]
      rw [show applyRemovals [] lst = lst from rfl]
      exact ih lst (i + 1) hW hP

/- ---------------------------------------------------------------------
   Claims C1 and C5
--------------------------------------------------------------------- -/

/-- C1 counterexample: on the sorted, duplicate-free, well-formed input
[cexA, cexB, cexC], groups cexB and cexC are distinct input groups that
share the two touch dates 4 and 5, and cexB appears earlier in the sorted
order, yet remove_redundant_groups discards cexB (removed by cexA in the
first iteration) and retains the later-indexed cexC.  This refutes the
claim that the earlier of two overlapping input groups is always the one
retained. -/
theorem c1_counterexample :
    ([cexA, cexB, cexC].Pairwise (fun a b => b.1 ≤ a.1) ∧
      [cexA, cexB, cexC].Nodup ∧ (∀ g ∈ [cexA, cexB, cexC], WFg g)) ∧
    at_least_2_common cexB.2 cexC.2 = true ∧
    remove_redundant_groups [cexA, cexB, cexC] = [cexA, cexC] ∧
    cexB ∉ remove_redundant_groups [cexA, cexB, cexC] ∧
    cexC ∈ remove_redundant_groups [cexA, cexB, cexC] := by
  decide

/-- C1 (amended): for every sorted, duplicate-free list of well-formed
scored groups, remove_redundant_groups returns a sublist of its input in
which no two distinct remaining groups share two or more touch dates; and
whenever two distinct input groups share two or more touch dates, if one
of them is retained the other is discarded — in particular the earlier
group wins only when it itself survives. -/
theorem c1_remove_redundant_groups (lst : List ScoredGroup)
    (hW : ∀ g ∈ lst, WFg g)
    (_hsorted : lst.Pairwise (fun a b => b.1 ≤ a.1))
    (_hnd : lst.Nodup) :
    (remove_redundant_groups lst).Sublist lst ∧
    (∀ x ∈ remove_redundant_groups lst, ∀ y ∈ remove_redundant_groups lst,
      x ≠ y → at_least_2_common x.2 y.2 = false) ∧
    (∀ x ∈ lst, ∀ y ∈ lst, x ≠ y → at_least_2_common x.2 y.2 = true →
      x ∈ remove_redundant_groups lst → y ∉ remove_redundant_groups lst) := by
  have hinv := rrgAux_invariant (lst.length + 1) [] lst []
    (by simpa using hW) (by simp) (by simp) (by simp)
  rw [List.nil_append] at hinv
  have hdef : remove_redundant_groups lst = rrgAux (lst.length + 1) lst [] 0 := rfl
  rw [show (List.length ([] : List ScoredGroup)) = 0 from rfl] at hinv
  rw [← hdef] at hinv
  refine ⟨hinv.1, hinv.2, ?_⟩
  intro x _ y _ hxy h2 hxout hyout
  have := hinv.2 x hxout y hyout hxy
  rw [h2] at this
  exact absurd this (by simp)

/-- C1 witness: the theorem applied to a concrete one-group list. -/
theorem c1_remove_redundant_groups_witness :
    (remove_redundant_groups [wG3]).Sublist [wG3] ∧
    (∀ x ∈ remove_redundant_groups [wG3], ∀ y ∈ remove_redundant_groups [wG3],
      x ≠ y → at_least_2_common x.2 y.2 = false) ∧
    (∀ x ∈ [wG3], ∀ y ∈ [wG3], x ≠ y → at_least_2_common x.2 y.2 = true →
      x ∈ remove_redundant_groups [wG3] → y ∉ remove_redundant_groups [wG3]) :=
  c1_remove_redundant_groups [wG3] (by decide) (by decide) (by decide)

/-- C5: remove_redundant_groups is idempotent on every list of well-formed
scored groups: the first pass leaves no two distinct groups sharing two or
more dates, so the second pass never collects a removal. -/
theorem c5_remove_redundant_groups_idempotent (lst : List ScoredGroup)
    (hW : ∀ g ∈ lst, WFg g) :
    remove_redundant_groups (remove_redundant_groups lst) =
      remove_redundant_groups lst := by
  have hinv := rrgAux_invariant (lst.length + 1) [] lst []
    (by simpa using hW) (by simp) (by simp) (by simp)
  rw [List.nil_append] at hinv
  have hdef : remove_redundant_groups lst = rrgAux (lst.length + 1) lst [] 0 := rfl
  rw [show (List.length ([] : List ScoredGroup)) = 0 from rfl] at hinv
  rw [← hdef] at hinv
  have hWout : ∀ g ∈ remove_redundant_groups lst, WFg g :=
    fun g hg => hW g (hinv.1.mem hg)
  exact rrgAux_fixed _ _ 0 hWout hinv.2

/-- C5 witness: idempotence at a concrete input. -/
theorem c5_remove_redundant_groups_idempotent_witness :
    remove_redundant_groups (remove_redundant_groups [cexA, cexB, cexC]) =
      remove_redundant_groups [cexA, cexB, cexC] :=
  c5_remove_redundant_groups_idempotent [cexA, cexB, cexC] (by decide)

/- ---------------------------------------------------------------------
   Helper lemmas: sorted(dates, reverse=True)
--------------------------------------------------------------------- -/

theorem mem_insertNatDesc {x a : Nat} {l : List Nat} :
    x ∈ insertNatDesc a l ↔ x = a ∨ x ∈ l := by
  induction l with
  | nil => simp [insertNatDesc]
  | cons b t ih =>
    rw [insertNatDesc]
    split
    · simp
    · rw [List.mem_cons, ih]
      simp [List.mem_cons]
      tauto

theorem insertNatDesc_sorted {a : Nat} {l : List Nat}
    (h : l.Pairwise (fun x y => y ≤ x)) :
    (insertNatDesc a l).Pairwise (fun x y => y ≤ x) := by
  induction l with
  | nil => simp [insertNatDesc]
  | cons b t ih =>
    rw [insertNatDesc]
    rw [List.pairwise_cons] at h
    split
    · next hba =>
      rw [List.pairwise_cons]
      constructor
      · intro y hy
        rcases List.mem_cons.mp hy with rfl | hyt
        · omega
        · have := h.1 y hyt
          omega
      · exact List.pairwise_cons.mpr h
    · next hba =>
      rw [List.pairwise_cons]
      constructor
      · intro y hy
        rcases mem_insertNatDesc.mp hy with rfl | hyt
        · omega
        · exact h.1 y hyt
      · exact ih h.2

theorem mem_foldl_insertNatDesc {x : Nat} (l : List Nat) :
    ∀ acc : List Nat, (x ∈ l.foldl (fun acc a => insertNatDesc a acc) acc ↔
      x ∈ acc ∨ x ∈ l) := by
  induction l with
  | nil => intro acc; simp
  | cons a t ih =>
    intro acc
    rw [List.foldl_cons, ih, mem_insertNatDesc]
    simp [List.mem_cons]
    tauto

theorem mem_pySortDescNat (x : Nat) (l : List Nat) :
    x ∈ pySortDescNat l ↔ x ∈ l := by
  unfold pySortDescNat
  rw [mem_foldl_insertNatDesc]
  simp

theorem pySortDescNat_sorted (l : List Nat) :
    (pySortDescNat l).Pairwise (fun x y => y ≤ x) := by
  unfold pySortDescNat
  have hgen : ∀ acc : List Nat, acc.Pairwise (fun x y => y ≤ x) →
      (l.foldl (fun acc a => insertNatDesc a acc) acc).Pairwise (fun x y => y ≤ x) := by
    induction l with
    | nil => intro acc h; exact h
    | cons a t ih =>
      intro acc h
      rw [List.foldl_cons]
      exact ih _ (insertNatDesc_sorted h)
  exact hgen [] (by simp)

theorem getLast_le_of_sorted :
    ∀ (l : List Nat) (hl : l ≠ []), l.Pairwise (fun x y => y ≤ x) →
      ∀ x ∈ l, l.getLast hl ≤ x := by
  intro l
  induction l with
  | nil => intro hl; exact absurd rfl hl
  | cons a t ih =>
    intro _ hs x hx
    cases t with
    | nil =>
      simp at hx
      simp [hx, List.getLast]
    | cons b t2 =>
      rw [List.getLast_cons (List.cons_ne_nil b t2)]
      rw [List.pairwise_cons] at hs
      rcases List.mem_cons.mp hx with rfl | hxt
      · have hmem := List.getLast_mem (List.cons_ne_nil b t2)
        exact hs.1 _ hmem
      · exact ih (List.cons_ne_nil b t2) hs.2 x hxt

/- ---------------------------------------------------------------------
   Helper lemmas: unfolding the validators once the sorted date list is
   known
--------------------------------------------------------------------- -/

theorem is_support_valid_eq {level : ScoredGroup} {table : List (Nat × ℚ)}
    {mr : Nat} {rest : List Nat}
    (h : pySortDescNat (level.2.map Prod.fst) = mr :: rest) :
    is_support_valid level table =
      (table.filter
        (fun r => decide (r.2 < listMean (level.2.map Prod.snd) -
            calculate_tolerance (table.map Prod.snd)) &&
          decide ((mr :: rest).getLast (List.cons_ne_nil mr rest) ≤ r.1) &&
          decide (r.1 ≤ mr))).isEmpty := by
  rw [is_support_valid, h]

theorem is_resistance_valid_eq {level : ScoredGroup} {table : List (Nat × ℚ)}
    {mr : Nat} {rest : List Nat}
    (h : pySortDescNat (level.2.map Prod.fst) = mr :: rest) :
    is_resistance_valid level table =
      (table.filter
        (fun r => decide (r.2 > listMean (level.2.map Prod.snd) +
            calculate_tolerance (table.map Prod.snd)) &&
          decide ((mr :: rest).getLast (List.cons_ne_nil mr rest) ≤ r.1) &&
          decide (r.1 ≤ mr))).isEmpty := by
  rw [is_resistance_valid, h]

theorem is_support_broken_eq {level : ScoredGroup} {table : List (Nat × ℚ)}
    {mr : Nat} {rest : List Nat}
    (h : pySortDescNat (level.2.map Prod.fst) = mr :: rest) :
    is_support_broken level table =
      (!(table.filter
        (fun r => decide (r.2 < listMean (level.2.map Prod.snd) -
            calculate_tolerance (table.map Prod.snd)) &&
          decide (mr < r.1))).isEmpty,
       table.filter
        (fun r => decide (r.2 < listMean (level.2.map Prod.snd) -
            calculate_tolerance (table.map Prod.snd)) &&
          decide (mr < r.1))) := by
  rw [is_support_broken, h]

theorem is_resistance_broken_eq {level : ScoredGroup} {table : List (Nat × ℚ)}
    {mr : Nat} {rest : List Nat}
    (h : pySortDescNat (level.2.map Prod.fst) = mr :: rest) :
    is_resistance_broken level table =
      (!(table.filter
        (fun r => decide (r.2 > listMean (level.2.map Prod.snd) +
            calculate_tolerance (table.map Prod.snd)) &&
          decide (mr < r.1))).isEmpty,
       table.filter
        (fun r => decide (r.2 > listMean (level.2.map Prod.snd) +
            calculate_tolerance (table.map Prod.snd)) &&
          decide (mr < r.1))) := by
  rw [is_resistance_broken, h]

/-- The maximal and minimal touch dates of a nonempty level are the head
and the last element of the descending sort of its dates. -/
theorem sortDesc_head_last {level : ScoredGroup} {dmin dmax : Nat}
    {mr : Nat} {rest : List Nat}
    (h : pySortDescNat (level.2.map Prod.fst) = mr :: rest)
    (hminmem : dmin ∈ level.2.map Prod.fst) (hmaxmem : dmax ∈ level.2.map Prod.fst)
    (hbounds : ∀ d ∈ level.2.map Prod.fst, dmin ≤ d ∧ d ≤ dmax) :
    mr = dmax ∧ (mr :: rest).getLast (List.cons_ne_nil mr rest) = dmin := by
  have hsorted := pySortDescNat_sorted (level.2.map Prod.fst)
  rw [h] at hsorted
  have hmrdates : mr ∈ level.2.map Prod.fst := by
    have : mr ∈ pySortDescNat (level.2.map Prod.fst) := by
      rw [h]
      exact List.mem_cons_self mr rest
    exact (mem_pySortDescNat mr _).mp this
  have hmax_le : ∀ d ∈ level.2.map Prod.fst, d ≤ mr := by
    intro d hd
    have hds : d ∈ mr :: rest := by
      rw [← h]
      exact (mem_pySortDescNat d _).mpr hd
    rcases List.mem_cons.mp hds with rfl | hdr
    · exact Nat.le_refl d
    · exact (List.pairwise_cons.mp hsorted).1 d hdr
  have hmr : mr = dmax := le_antisymm (hbounds mr hmrdates).2 (hmax_le dmax hmaxmem)
  have hlrmem : (mr :: rest).getLast (List.cons_ne_nil mr rest) ∈ mr :: rest :=
    List.getLast_mem (List.cons_ne_nil mr rest)
  have hlrdates : (mr :: rest).getLast (List.cons_ne_nil mr rest) ∈
      level.2.map Prod.fst := by
    apply (mem_pySortDescNat _ _).mp
    rw [h]
    exact hlrmem
  have hlr_le : (mr :: rest).getLast (List.cons_ne_nil mr rest) ≤ dmin := by
    apply getLast_le_of_sorted (mr :: rest) (List.cons_ne_nil mr rest) hsorted
    rw [← h]
    exact (mem_pySortDescNat dmin _).mpr hminmem
  exact ⟨hmr, le_antisymm hlr_le (hbounds _ hlrdates).1⟩

/- ---------------------------------------------------------------------
   Claims C2 and C3
--------------------------------------------------------------------- -/

/-- C2: for every level with at least one touch and every nonempty
two-column date/price table, is_support_valid returns True iff no table
row dated within the closed interval from the level's earliest to its
latest touch date has price strictly below the mean touch price minus the
tolerance computed from the table's price column; is_resistance_valid is
the mirror with strictly above the mean plus tolerance. -/
theorem c2_level_validators (level : ScoredGroup) (table : List (Nat × ℚ))
    (dmin dmax : Nat)
    (hne : level.2 ≠ []) (_htne : table ≠ [])
    (hminmem : dmin ∈ level.2.map Prod.fst) (hmaxmem : dmax ∈ level.2.map Prod.fst)
    (hbounds : ∀ d ∈ level.2.map Prod.fst, dmin ≤ d ∧ d ≤ dmax) :
    (is_support_valid level table = true ↔
      ∀ r ∈ table, dmin ≤ r.1 → r.1 ≤ dmax →
        ¬(r.2 < listMean (level.2.map Prod.snd) -
            calculate_tolerance (table.map Prod.snd))) ∧
    (is_resistance_valid level table = true ↔
      ∀ r ∈ table, dmin ≤ r.1 → r.1 ≤ dmax →
        ¬(r.2 > listMean (level.2.map Prod.snd) +
            calculate_tolerance (table.map Prod.snd))) := by
  cases h : pySortDescNat (level.2.map Prod.fst) with
  | nil =>
    exfalso
    have hdne : level.2.map Prod.fst ≠ [] := by
      intro hc
      exact hne (List.map_eq_nil_iff.mp hc)
    obtain ⟨d, hd⟩ := List.exists_mem_of_ne_nil _ hdne
    have := (mem_pySortDescNat d _).mpr hd
    rw [h] at this
    simp at this
  | cons mr rest =>
    obtain ⟨hmr, hgl⟩ := sortDesc_head_last h hminmem hmaxmem hbounds
    constructor
    · rw [is_support_valid_eq h, hgl, hmr]
      rw [List.isEmpty_iff, List.filter_eq_nil_iff]
      simp only [Bool.and_eq_true, decide_eq_true_eq]
      constructor
      · intro hall r hr h1 h2 h3
        exact hall r hr ⟨⟨h3, h1⟩, h2⟩
      · intro hall r hr hc
        exact hall r hr hc.1.2 hc.2 hc.1.1
    · rw [is_resistance_valid_eq h, hgl, hmr]
      rw [List.isEmpty_iff, List.filter_eq_nil_iff]
      simp only [Bool.and_eq_true, decide_eq_true_eq]
      constructor
      · intro hall r hr h1 h2 h3
        exact hall r hr ⟨⟨h3, h1⟩, h2⟩
      · intro hall r hr hc
        exact hall r hr hc.1.2 hc.2 hc.1.1

/-- C2 witness: the theorem applied to a concrete level and table. -/
theorem c2_level_validators_witness :
    (is_support_valid wG3 wTableA = true ↔
      ∀ r ∈ wTableA, 1 ≤ r.1 → r.1 ≤ 3 →
        ¬(r.2 < listMean (wG3.2.map Prod.snd) -
            calculate_tolerance (wTableA.map Prod.snd))) ∧
    (is_resistance_valid wG3 wTableA = true ↔
      ∀ r ∈ wTableA, 1 ≤ r.1 → r.1 ≤ 3 →
        ¬(r.2 > listMean (wG3.2.map Prod.snd) +
            calculate_tolerance (wTableA.map Prod.snd))) :=
  c2_level_validators wG3 wTableA 1 3 (by decide) (by decide) (by decide)
    (by decide) (by decide)

/-- C3: for every touched level and nonempty table, is_support_broken
returns is_breached = True iff some row dated strictly after the latest
touch date has price below the mean minus tolerance, and breach_data holds
exactly those rows; is_resistance_broken is the mirror with above the mean
plus tolerance. -/
theorem c3_breach_detectors (level : ScoredGroup) (table : List (Nat × ℚ))
    (dmax : Nat)
    (hne : level.2 ≠ []) (_htne : table ≠ [])
    (hmaxmem : dmax ∈ level.2.map Prod.fst)
    (hbound : ∀ d ∈ level.2.map Prod.fst, d ≤ dmax) :
    ((is_support_broken level table).1 = true ↔
      ∃ r ∈ table, dmax < r.1 ∧
        r.2 < listMean (level.2.map Prod.snd) -
          calculate_tolerance (table.map Prod.snd)) ∧
    (∀ r, r ∈ (is_support_broken level table).2 ↔
      r ∈ table ∧ dmax < r.1 ∧
        r.2 < listMean (level.2.map Prod.snd) -
          calculate_tolerance (table.map Prod.snd)) ∧
    ((is_resistance_broken level table).1 = true ↔
      ∃ r ∈ table, dmax < r.1 ∧
        r.2 > listMean (level.2.map Prod.snd) +
          calculate_tolerance (table.map Prod.snd)) ∧
    (∀ r, r ∈ (is_resistance_broken level table).2 ↔
      r ∈ table ∧ dmax < r.1 ∧
        r.2 > listMean (level.2.map Prod.snd) +
          calculate_tolerance (table.map Prod.snd)) := by
  cases h : pySortDescNat (level.2.map Prod.fst) with
  | nil =>
    exfalso
    have hdne : level.2.map Prod.fst ≠ [] := by
      intro hc
      exact hne (List.map_eq_nil_iff.mp hc)
    obtain ⟨d, hd⟩ := List.exists_mem_of_ne_nil _ hdne
    have := (mem_pySortDescNat d _).mpr hd
    rw [h] at this
    simp at this
  | cons mr rest =>
    have hbounds : ∀ d ∈ level.2.map Prod.fst, 0 ≤ d ∧ d ≤ dmax :=
      fun d hd => ⟨Nat.zero_le d, hbound d hd⟩
    have hmaxself : dmax ≤ dmax := Nat.le_refl dmax
    have hmr : mr = dmax := by
      have hsorted := pySortDescNat_sorted (level.2.map Prod.fst)
      rw [h] at hsorted
      have hmrdates : mr ∈ level.2.map Prod.fst := by
        have : mr ∈ pySortDescNat (level.2.map Prod.fst) := by
          rw [h]
          exact List.mem_cons_self mr rest
        exact (mem_pySortDescNat mr _).mp this
      have hmax_le : ∀ d ∈ level.2.map Prod.fst, d ≤ mr := by
        intro d hd
        have hds : d ∈ mr :: rest := by
          rw [← h]
          exact (mem_pySortDescNat d _).mpr hd
        rcases List.mem_cons.mp hds with rfl | hdr
        · exact Nat.le_refl d
        · exact (List.pairwise_cons.mp hsorted).1 d hdr
      exact le_antisymm (hbound mr hmrdates) (hmax_le dmax hmaxmem)
    refine ⟨?_, ?_, ?_, ?_⟩
    · rw [is_support_broken_eq h, hmr]
      simp only [Bool.not_eq_true', List.isEmpty_eq_false_iff_exists_mem]
      constructor
      · rintro ⟨r, hr⟩
        have hrt := List.mem_of_mem_filter hr
        have hc := List.of_mem_filter hr
        simp only [Bool.and_eq_true, decide_eq_true_eq] at hc
        exact ⟨r, hrt, hc.2, hc.1⟩
      · rintro ⟨r, hrt, h1, h2⟩
        refine ⟨r, List.mem_filter.mpr ⟨hrt, ?_⟩⟩
        simp only [Bool.and_eq_true, decide_eq_true_eq]
        exact ⟨h2, h1⟩
    · intro r
      rw [is_support_broken_eq h, hmr]
      simp only [List.mem_filter, Bool.and_eq_true, decide_eq_true_eq]
      tauto
    · rw [is_resistance_broken_eq h, hmr]
      simp only [Bool.not_eq_true', List.isEmpty_eq_false_iff_exists_mem]
      constructor
      · rintro ⟨r, hr⟩
        have hrt := List.mem_of_mem_filter hr
        have hc := List.of_mem_filter hr
        simp only [Bool.and_eq_true, decide_eq_true_eq] at hc
        exact ⟨r, hrt, hc.2, hc.1⟩
      · rintro ⟨r, hrt, h1, h2⟩
        refine ⟨r, List.mem_filter.mpr ⟨hrt, ?_⟩⟩
        simp only [Bool.and_eq_true, decide_eq_true_eq]
        exact ⟨h2, h1⟩
    · intro r
      rw [is_resistance_broken_eq h, hmr]
      simp only [List.mem_filter, Bool.and_eq_true, decide_eq_true_eq]
      tauto

/-- C3 witness: the theorem applied to a concrete level and table, on
which the support is breached by the row (4, 2). -/
theorem c3_breach_detectors_witness :
    ((is_support_broken wG3 wTableA).1 = true ↔
      ∃ r ∈ wTableA, 3 < r.1 ∧
        r.2 < listMean (wG3.2.map Prod.snd) -
          calculate_tolerance (wTableA.map Prod.snd)) ∧
    (∀ r, r ∈ (is_support_broken wG3 wTableA).2 ↔
      r ∈ wTableA ∧ 3 < r.1 ∧
        r.2 < listMean (wG3.2.map Prod.snd) -
          calculate_tolerance (wTableA.map Prod.snd)) ∧
    ((is_resistance_broken wG3 wTableA).1 = true ↔
      ∃ r ∈ wTableA, 3 < r.1 ∧
        r.2 > listMean (wG3.2.map Prod.snd) +
          calculate_tolerance (wTableA.map Prod.snd)) ∧
    (∀ r, r ∈ (is_resistance_broken wG3 wTableA).2 ↔
      r ∈ wTableA ∧ 3 < r.1 ∧
        r.2 > listMean (wG3.2.map Prod.snd) +
          calculate_tolerance (wTableA.map Prod.snd)) :=
  c3_breach_detectors wG3 wTableA 3 (by decide) (by decide) (by decide) (by decide)

/- ---------------------------------------------------------------------
   Claim C4
--------------------------------------------------------------------- -/

theorem mem_insertGroupDesc {x a : ScoredGroup} {l : List ScoredGroup} :
    x ∈ insertGroupDesc a l ↔ x = a ∨ x ∈ l := by
  induction l with
  | nil => simp [insertGroupDesc]
  | cons b t ih =>
    rw [insertGroupDesc]
    split
    · simp
    · rw [List.mem_cons, ih]
      simp [List.mem_cons]
      tauto

theorem mem_sortGroupsDesc {x : ScoredGroup} (l : List ScoredGroup) :
    x ∈ sortGroupsDesc l ↔ x ∈ l := by
  unfold sortGroupsDesc
  have hgen : ∀ acc : List ScoredGroup,
      (x ∈ l.foldl (fun acc a => insertGroupDesc a acc) acc ↔ x ∈ acc ∨ x ∈ l) := by
    induction l with
    | nil => intro acc; simp
    | cons a t ih =>
      intro acc
      rw [List.foldl_cons, ih, mem_insertGroupDesc]
      simp [List.mem_cons]
      tauto
  rw [hgen []]
  simp

theorem mem_remove_duplicates {x : ScoredGroup} {l : List ScoredGroup}
    (h : x ∈ remove_duplicates l) : x ∈ l := by
  unfold remove_duplicates at h
  have hgen : ∀ (l : List ScoredGroup) (acc : List ScoredGroup),
      x ∈ l.foldl
        (fun acc g => if acc.any (fun h => groupBeq h g) then acc else acc ++ [g])
        acc → x ∈ acc ∨ x ∈ l := by
    intro l
    induction l with
    | nil => intro acc h; exact Or.inl h
    | cons a t ih =>
      intro acc h
      rw [List.foldl_cons] at h
      rcases ih _ h with hacc | ht
      · by_cases hc : acc.any (fun h => groupBeq h a) = true
        · rw [if_pos hc] at hacc
          exact Or.inl hacc
        · rw [if_neg hc] at hacc
          rcases List.mem_append.mp hacc with h1 | h1
          · exact Or.inl h1
          · simp at h1
            simp [h1]
      · simp [ht]
  rcases hgen l [] h with hc | hc
  · simp at hc
  · exact hc

theorem mem_manipulate_groups {g : ScoredGroup} {tg : List (ℚ × PyDict)}
    (h : g ∈ manipulate_groups tg) : 3 ≤ g.1 ∧ g.1 = g.2.length := by
  unfold manipulate_groups at h
  rw [mem_sortGroupsDesc] at h
  have hig := mem_remove_duplicates h
  rcases List.mem_map.mp hig with ⟨v, hv, hgv⟩
  have h3 : (3 : Nat) ≤ v.length := by
    have := List.of_mem_filter hv
    simpa using this
  rw [← hgv]
  exact ⟨h3, rfl⟩

/-- C4: every group returned by the clustering pipeline (process_groups =
tolerance grouping, manipulate_groups, remove_redundant_groups) carries a
touch count that is at least 3 and equal to the number of entries of its
date/price mapping. -/
theorem c4_process_groups_touch_count (series : List ℚ)
    (possible : List (Nat × ℚ)) :
    ∀ g ∈ process_groups series possible, 3 ≤ g.1 ∧ g.1 = g.2.length := by
  intro g hg
  have hsub : (process_groups series possible).Sublist
      (manipulate_groups (create_tolerance_group possible
        (create_tolerance_function series))) := by
    unfold process_groups remove_redundant_groups
    exact rrgAux_sublist _ _ _ _
  exact mem_manipulate_groups (hsub.mem hg)

/-- C4 witness: the theorem applied to the group produced by a concrete
run of the pipeline. -/
theorem c4_process_groups_touch_count_witness :
    3 ≤ wG3.1 ∧ wG3.1 = wG3.2.length :=
  c4_process_groups_touch_count wSeries wPossible wG3 (by decide)

/- ---------------------------------------------------------------------
   Claim C6
--------------------------------------------------------------------- -/

theorem consecutive_gaps_length (ds : List Nat) :
    (consecutive_gaps ds).length = ds.length - 1 := by
  unfold consecutive_gaps
  rw [List.length_map, List.length_zip, List.length_tail]
  omega

theorem consecutive_gaps_get (ds : List Nat) :
    ∀ (k a b : Nat), ds[k]? = some a → ds[k + 1]? = some b →
      (consecutive_gaps ds)[k]? = some ((b : ℤ) - (a : ℤ)) := by
  induction ds with
  | nil => intro k a b h; simp at h
  | cons x t ih =>
    intro k a b ha hb
    cases t with
    | nil =>
      cases k with
      | zero => simp at hb
      | succ k => simp at ha
    | cons y t2 =>
      have hcg : consecutive_gaps (x :: y :: t2) =
          ((y : ℤ) - (x : ℤ)) :: consecutive_gaps (y :: t2) := by
        unfold consecutive_gaps
        rfl
      cases k with
      | zero =>
        simp at ha hb
        rw [hcg]
        simp [ha, hb]
      | succ k =>
        rw [hcg]
        rw [List.getElem?_cons_succ] at ha hb
        rw [List.getElem?_cons_succ]
        exact ih k a b ha hb

theorem consecutive_gaps_nonneg {ds : List Nat}
    (h : ds.Pairwise (· < ·)) : ∀ g ∈ consecutive_gaps ds, 0 ≤ g := by
  induction ds with
  | nil => simp [consecutive_gaps]
  | cons x t ih =>
    cases t with
    | nil => simp [consecutive_gaps]
    | cons y t2 =>
      intro g hg
      have hcg : consecutive_gaps (x :: y :: t2) =
          ((y : ℤ) - (x : ℤ)) :: consecutive_gaps (y :: t2) := by
        unfold consecutive_gaps
        rfl
      rw [hcg] at hg
      rw [List.pairwise_cons] at h
      rcases List.mem_cons.mp hg with rfl | hgt
      · have hxy : x < y := h.1 y (List.mem_cons_self y t2)
        omega
      · exact ih h.2 g hgt

/-- C6: for a Support (or, by inheritance, Resistance) object built from a
(touch_count, touches) pair whose mapping has its dates in ascending order
and whose touch count equals the number of entries, num_days_bw_tests has
length touch_count - 1, every entry is nonnegative, and entry k is the
signed day count from touch k to touch k + 1 in ascending date order. -/
theorem c6_gap_sequence (data_tuple : Nat × List (Nat × ℚ)) (is_breached : Bool)
    (breach_data : List (Nat × ℚ)) (most_recents : Nat × ℚ)
    (stock_name : String) (today : Nat)
    (hsorted : (data_tuple.2.map Prod.fst).Pairwise (· < ·))
    (hcount : data_tuple.1 = data_tuple.2.length) :
    (mkSupport data_tuple is_breached breach_data most_recents stock_name
        today).num_days_bw_tests.length = data_tuple.1 - 1 ∧
    (∀ g ∈ (mkSupport data_tuple is_breached breach_data most_recents stock_name
        today).num_days_bw_tests, 0 ≤ g) ∧
    (∀ (k a b : Nat), (data_tuple.2.map Prod.fst)[k]? = some a →
      (data_tuple.2.map Prod.fst)[k + 1]? = some b →
      (mkSupport data_tuple is_breached breach_data most_recents stock_name
        today).num_days_bw_tests[k]? = some ((b : ℤ) - (a : ℤ))) := by
  have hfield : (mkSupport data_tuple is_breached breach_data most_recents
      stock_name today).num_days_bw_tests =
      consecutive_gaps (data_tuple.2.map Prod.fst) := rfl
  rw [hfield]
  refine ⟨?_, consecutive_gaps_nonneg hsorted, consecutive_gaps_get _⟩
  rw [consecutive_gaps_length, List.length_map, hcount]

/-- C6 witness: the spec example with touches (0, 100), (10, 102),
(25, 99); the gap sequence is [10, 15]. -/
theorem c6_gap_sequence_witness :
    (mkSupport wTouches false [] (25, 99) "W" 30).num_days_bw_tests.length =
      wTouches.1 - 1 ∧
    (∀ g ∈ (mkSupport wTouches false [] (25, 99) "W" 30).num_days_bw_tests,
      0 ≤ g) ∧
    (∀ (k a b : Nat), (wTouches.2.map Prod.fst)[k]? = some a →
      (wTouches.2.map Prod.fst)[k + 1]? = some b →
      (mkSupport wTouches false [] (25, 99) "W"
        30).num_days_bw_tests[k]? = some ((b : ℤ) - (a : ℤ))) :=
  c6_gap_sequence wTouches false [] (25, 99) "W" 30 (by decide) (by decide)

/- ---------------------------------------------------------------------
   Claims C7 and C8
--------------------------------------------------------------------- -/

theorem filter_supports_ok {supports : List SupportObj} {conds : List (List Char)}
    {evalCond : List Char → SupportObj → Bool} {b ig : Bool} {cl : List (List Char)}
    (h : process_conditions conds supportLT = Except.ok cl) :
    filter_supports supports conds evalCond b ig =
      Except.ok (supports.filter
        (fun s => (ig || (s.is_breached == b)) && cl.all (fun c => evalCond c s))) := by
  rw [filter_supports, h]

theorem filter_resistances_ok {resistances : List SupportObj}
    {conds : List (List Char)} {evalCond : List Char → SupportObj → Bool}
    {b ig : Bool} {cl : List (List Char)}
    (h : process_conditions conds resistanceLT = Except.ok cl) :
    filter_resistances resistances conds evalCond b ig =
      Except.ok (resistances.filter
        (fun s => (ig || (s.is_breached == b)) && cl.all (fun c => evalCond c s))) := by
  rw [filter_resistances, h]

theorem filter_supports_error {supports : List SupportObj} {conds : List (List Char)}
    {evalCond : List Char → SupportObj → Bool} {b ig : Bool} {e : List Char}
    (h : process_conditions conds supportLT = Except.error e) :
    filter_supports supports conds evalCond b ig = Except.error e := by
  rw [filter_supports, h]

/-- C7: with no condition strings and default keyword arguments the filter
returns exactly the unbreached records; with condition strings that
preprocess successfully, a record passes iff its is_breached flag equals
the requested value and every processed condition evaluates to True on it
(their conjunction).  Stated for filter_supports and its mirror
filter_resistances. -/
theorem c7_filter_composition (supports resistances : List SupportObj)
    (evalCond : List Char → SupportObj → Bool) :
    (filter_supports supports [] evalCond false false =
      Except.ok (supports.filter (fun s => !s.is_breached))) ∧
    (filter_resistances resistances [] evalCond false false =
      Except.ok (resistances.filter (fun s => !s.is_breached))) ∧
    (∀ (conds cl : List (List Char)) (b : Bool),
      process_conditions conds supportLT = Except.ok cl →
      ∃ out, filter_supports supports conds evalCond b false = Except.ok out ∧
        ∀ s, s ∈ out ↔ s ∈ supports ∧ s.is_breached = b ∧
          ∀ c ∈ cl, evalCond c s = true) ∧
    (∀ (conds cl : List (List Char)) (b : Bool),
      process_conditions conds resistanceLT = Except.ok cl →
      ∃ out, filter_resistances resistances conds evalCond b false = Except.ok out ∧
        ∀ s, s ∈ out ↔ s ∈ resistances ∧ s.is_breached = b ∧
          ∀ c ∈ cl, evalCond c s = true) := by
  refine ⟨?_, ?_, ?_, ?_⟩
  · rw [filter_supports_ok
      (show process_conditions [] supportLT = Except.ok [] from rfl)]
    congr 1
    apply List.filter_congr
    intro s _
    cases hsb : s.is_breached <;> simp [hsb]
  · rw [filter_resistances_ok
      (show process_conditions [] resistanceLT = Except.ok [] from rfl)]
    congr 1
    apply List.filter_congr
    intro s _
    cases hsb : s.is_breached <;> simp [hsb]
  · intro conds cl b h
    refine ⟨_, filter_supports_ok h, ?_⟩
    intro s
    rw [List.mem_filter]
    simp only [Bool.and_eq_true, Bool.or_eq_true, List.all_eq_true, beq_iff_eq]
    constructor
    · rintro ⟨hs, ⟨hb | hb, hall⟩⟩
      · exact absurd hb (by simp)
      · exact ⟨hs, hb, hall⟩
    · rintro ⟨hs, hb, hall⟩
      exact ⟨hs, Or.inr hb, hall⟩
  · intro conds cl b h
    refine ⟨_, filter_resistances_ok h, ?_⟩
    intro s
    rw [List.mem_filter]
    simp only [Bool.and_eq_true, Bool.or_eq_true, List.all_eq_true, beq_iff_eq]
    constructor
    · rintro ⟨hs, ⟨hb | hb, hall⟩⟩
      · exact absurd hb (by simp)
      · exact ⟨hs, hb, hall⟩
    · rintro ⟨hs, hb, hall⟩
      exact ⟨hs, Or.inr hb, hall⟩

/-- C7 witness: the theorem applied to a concrete pair of records and the
condition string of the spec example. -/
theorem c7_filter_composition_witness :
    (filter_supports [sObj90, sObjBr] [] evalTrue false false =
      Except.ok ([sObj90, sObjBr].filter (fun s => !s.is_breached))) ∧
    (∃ out, filter_supports [sObj90, sObjBr] [condNums] evalTrue false false =
        Except.ok out ∧
      ∀ s, s ∈ out ↔ s ∈ [sObj90, sObjBr] ∧ s.is_breached = false ∧
        ∀ c ∈ [pCondNums], evalTrue c s = true) :=
  ⟨(c7_filter_composition [sObj90, sObjBr] [] evalTrue).1,
   (c7_filter_composition [sObj90, sObjBr] [] evalTrue).2.2.1
     [condNums] [pCondNums] false (by rfl)⟩

/-- C8: each disallowed operator/attribute combination — ==, !=, >=, <=
against average and ==, != against days_between — makes the filter raise a
ValueError during condition preprocessing, for every record list and
valuation, so no record-level filtering outcome is produced. -/
theorem c8_condition_errors (supports : List SupportObj)
    (evalCond : List Char → SupportObj → Bool) (b ig : Bool) :
    filter_supports supports [ "average == 50".data] evalCond b ig =
      Except.error errAvgEq ∧
    filter_supports supports [ "average != 50".data] evalCond b ig =
      Except.error errAvgNe ∧
    filter_supports supports [ "average >= 50".data] evalCond b ig =
      Except.error errAvgGe ∧
    filter_supports supports [ "average <= 50".data] evalCond b ig =
      Except.error errAvgLe ∧
    filter_supports supports [ "days_between == 3".data] evalCond b ig =
      Except.error errNumEq ∧
    filter_supports supports [ "days_between != 3".data] evalCond b ig =
      Except.error errNumNe :=
  ⟨filter_supports_error (by rfl), filter_supports_error (by rfl),
   filter_supports_error (by rfl), filter_supports_error (by rfl),
   filter_supports_error (by rfl), filter_supports_error (by rfl)⟩

/- ---------------------------------------------------------------------
   Claim C9
--------------------------------------------------------------------- -/

theorem mem_insertSupAsc {x a : SupportObj} {l : List SupportObj} :
    x ∈ insertSupAsc a l ↔ x = a ∨ x ∈ l := by
  induction l with
  | nil => simp [insertSupAsc]
  | cons b t ih =>
    rw [insertSupAsc]
    split
    · simp
    · rw [List.mem_cons, ih]
      simp [List.mem_cons]
      tauto

theorem insertSupAsc_ne_nil (a : SupportObj) (l : List SupportObj) :
    insertSupAsc a l ≠ [] := by
  cases l with
  | nil => simp [insertSupAsc]
  | cons b t =>
    rw [insertSupAsc]
    split <;> simp

theorem insertSupAsc_sorted {a : SupportObj} {l : List SupportObj}
    (h : l.Pairwise (fun x y => x.avg ≤ y.avg)) :
    (insertSupAsc a l).Pairwise (fun x y => x.avg ≤ y.avg) := by
  induction l with
  | nil => simp [insertSupAsc]
  | cons b t ih =>
    rw [insertSupAsc]
    rw [List.pairwise_cons] at h
    split
    · next hab =>
      rw [List.pairwise_cons]
      constructor
      · intro y hy
        rcases List.mem_cons.mp hy with rfl | hyt
        · exact le_of_lt hab
        · exact le_trans (le_of_lt hab) (h.1 y hyt)
      · exact List.pairwise_cons.mpr h
    · next hab =>
      rw [List.pairwise_cons]
      constructor
      · intro y hy
        rcases mem_insertSupAsc.mp hy with rfl | hyt
        · exact le_of_not_lt hab
        · exact h.1 y hyt
      · exact ih h.2

theorem getLast?_cons_of_ne_nil {b : SupportObj} {l : List SupportObj}
    (h : l ≠ []) : (b :: l).getLast? = l.getLast? := by
  cases l with
  | nil => exact absurd rfl h
  | cons c t => exact List.getLast?_cons_cons

theorem insertSupAsc_getLast? {a : SupportObj} {l : List SupportObj}
    (h : l.Pairwise (fun x y => x.avg ≤ y.avg)) :
    (insertSupAsc a l).getLast? =
      match l.getLast? with
      | none => some a
      | some m => if m.avg ≤ a.avg then some a else some m := by
  induction l with
  | nil => rfl
  | cons b t ih =>
    rw [List.pairwise_cons] at h
    rw [insertSupAsc]
    split
    · next hab =>
      rw [List.getLast?_cons_cons]
      obtain ⟨m, hm⟩ : ∃ m, (b :: t).getLast? = some m := by
        cases t with
        | nil => exact ⟨b, rfl⟩
        | cons c t2 =>
          exact ⟨(c :: t2).getLast (List.cons_ne_nil c t2), by
            rw [getLast?_cons_of_ne_nil (List.cons_ne_nil c t2)]
            exact List.getLast?_eq_getLast _ _⟩
      rw [hm]
      have hmmem : m ∈ b :: t := by
        apply List.mem_of_mem_getLast?
        rw [hm]
        rfl
      have hbm : b.avg ≤ m.avg := by
        rcases List.mem_cons.mp hmmem with rfl | hmt
        · exact le_refl _
        · exact h.1 m hmt
      exact (if_neg (fun hc => absurd (le_trans hbm hc) (not_le.mpr hab))).symm
    · next hab =>
      cases t with
      | nil =>
        have hba : b.avg ≤ a.avg := le_of_not_lt hab
        show (b :: insertSupAsc a []).getLast? = _
        rw [show insertSupAsc a [] = [a] from rfl]
        rw [List.getLast?_cons_cons]
        simp [hba]
      | cons c t2 =>
        show (b :: insertSupAsc a (c :: t2)).getLast? = _
        rw [getLast?_cons_of_ne_nil (insertSupAsc_ne_nil a (c :: t2))]
        rw [ih h.2]
        rw [show (b :: c :: t2).getLast? = (c :: t2).getLast? from
          List.getLast?_cons_cons]

theorem sortSupportsByAvg_getLast? (l : List SupportObj) :
    (sortSupportsByAvg l).getLast? = lastMaxAvg l := by
  have hgen : ∀ (l acc : List SupportObj),
      acc.Pairwise (fun x y => x.avg ≤ y.avg) →
      (l.foldl (fun acc a => insertSupAsc a acc) acc).getLast? =
        l.foldl
          (fun o a =>
            match o with
            | none => some a
            | some m => if m.avg ≤ a.avg then some a else some m)
          acc.getLast? := by
    intro l
    induction l with
    | nil => intro acc _; rfl
    | cons a t ih =>
      intro acc h
      rw [List.foldl_cons, List.foldl_cons]
      rw [ih _ (insertSupAsc_sorted h)]
      rw [insertSupAsc_getLast? h]
  exact hgen l [] (by simp)

/-- The last element of the sorted-by-average list is the last maximiser
of the average in original list order. -/
theorem lastMaxAvg_spec (l : List SupportObj) :
    l = [] ∨ ∃ l1 m l2, l = l1 ++ m :: l2 ∧ lastMaxAvg l = some m ∧
      (∀ s ∈ l1, s.avg ≤ m.avg) ∧ (∀ s ∈ l2, s.avg < m.avg) := by
  induction l using List.reverseRecOn with
  | nil => exact Or.inl rfl
  | append_singleton init a ih =>
    right
    have hstep : lastMaxAvg (init ++ [a]) =
        match lastMaxAvg init with
        | none => some a
        | some m => if m.avg ≤ a.avg then some a else some m := by
      unfold lastMaxAvg
      rw [List.foldl_append]
      rfl
    rcases ih with rfl | ⟨l1, m, l2, hdecomp, hlast, hle, hlt⟩
    · refine ⟨[], a, [], by simp, ?_, by simp, by simp⟩
      rw [hstep]
      rfl
    · by_cases hma : m.avg ≤ a.avg
      · refine ⟨init, a, [], by simp, ?_, ?_, by simp⟩
        · rw [hstep, hlast]
          simp [hma]
        · intro s hs
          rw [hdecomp] at hs
          rcases List.mem_append.mp hs with h1 | h2
          · exact le_trans (hle s h1) hma
          · rcases List.mem_cons.mp h2 with rfl | h3
            · exact hma
            · exact le_trans (le_of_lt (hlt s h3)) hma
      · refine ⟨l1, m, l2 ++ [a], by rw [hdecomp]; simp, ?_, hle, ?_⟩
        · rw [hstep, hlast]
          simp [hma]
        · intro s hs
          rcases List.mem_append.mp hs with h1 | h2
          · exact hlt s h1
          · simp at h2
            subst h2
            exact lt_of_not_le hma

theorem mkStock_some_some {name : String} {S R : List SupportObj}
    {fs fr : SupportObj}
    (hs : (sortSupportsByAvg S).getLast? = some fs)
    (hr : (sortSupportsByAvg R).getLast? = some fr) :
    mkStock name S R =
      { stock_name := name, supports := S, resistances := R,
        final_support := some fs, final_resistance := some fr,
        is_range_bound := true, range_width := some (fr.avg - fs.avg) } := by
  rw [mkStock, hs, hr]

theorem mkStock_none_left {name : String} {S R : List SupportObj}
    (hs : (sortSupportsByAvg S).getLast? = none) :
    mkStock name S R =
      { stock_name := name, supports := S, resistances := R,
        final_support := none,
        final_resistance := (sortSupportsByAvg R).getLast?,
        is_range_bound := false, range_width := none } := by
  rw [mkStock, hs]

theorem mkStock_some_none {name : String} {S R : List SupportObj}
    {fs : SupportObj}
    (hs : (sortSupportsByAvg S).getLast? = some fs)
    (hr : (sortSupportsByAvg R).getLast? = none) :
    mkStock name S R =
      { stock_name := name, supports := S, resistances := R,
        final_support := some fs, final_resistance := none,
        is_range_bound := false, range_width := none } := by
  rw [mkStock, hs, hr]

/-- C9: with both lists nonempty the final support and final resistance
are the last maximisers of the average price in each list (ties broken in
favour of the later element), the stock is range bound, and the range
width is the difference of the two final averages; with either list empty
the stock is not range bound and the range width is None. -/
theorem c9_stock_aggregation (name : String)
    (supports resistances : List SupportObj) :
    (supports ≠ [] → resistances ≠ [] →
      ∃ l1 fs l2 r1 fr r2,
        supports = l1 ++ fs :: l2 ∧ resistances = r1 ++ fr :: r2 ∧
        (mkStock name supports resistances).final_support = some fs ∧
        (mkStock name supports resistances).final_resistance = some fr ∧
        (∀ s ∈ l1, s.avg ≤ fs.avg) ∧ (∀ s ∈ l2, s.avg < fs.avg) ∧
        (∀ s ∈ r1, s.avg ≤ fr.avg) ∧ (∀ s ∈ r2, s.avg < fr.avg) ∧
        (mkStock name supports resistances).is_range_bound = true ∧
        (mkStock name supports resistances).range_width =
          some (fr.avg - fs.avg)) ∧
    (supports = [] ∨ resistances = [] →
      (mkStock name supports resistances).is_range_bound = false ∧
      (mkStock name supports resistances).range_width = none) := by
  constructor
  · intro hS hR
    rcases lastMaxAvg_spec supports with rfl | ⟨l1, fs, l2, hd1, hl1, hle1, hlt1⟩
    · exact absurd rfl hS
    rcases lastMaxAvg_spec resistances with rfl | ⟨r1, fr, r2, hd2, hl2, hle2, hlt2⟩
    · exact absurd rfl hR
    have hs : (sortSupportsByAvg supports).getLast? = some fs := by
      rw [sortSupportsByAvg_getLast?]
      exact hl1
    have hr : (sortSupportsByAvg resistances).getLast? = some fr := by
      rw [sortSupportsByAvg_getLast?]
      exact hl2
    refine ⟨l1, fs, l2, r1, fr, r2, hd1, hd2, ?_, ?_, hle1, hlt1, hle2, hlt2, ?_, ?_⟩ <;>
      rw [mkStock_some_some hs hr]
  · intro hor
    rcases hor with rfl | rfl
    · have hs : (sortSupportsByAvg ([] : List SupportObj)).getLast? = none := rfl
      rw [mkStock_none_left hs]
      exact ⟨rfl, rfl⟩
    · have hr : (sortSupportsByAvg ([] : List SupportObj)).getLast? = none := rfl
      cases hs : (sortSupportsByAvg supports).getLast? with
      | none =>
        rw [mkStock_none_left hs]
        exact ⟨rfl, rfl⟩
      | some fs =>
        rw [mkStock_some_none hs hr]
        exact ⟨rfl, rfl⟩

/-- C9 witness: one unbreached support with average 90 and one unbreached
resistance with average 110 give a range-bound stock of width 20. -/
theorem c9_stock_aggregation_witness :
    (∃ l1 fs l2 r1 fr r2,
      [sObj90] = l1 ++ fs :: l2 ∧ [rObj110] = r1 ++ fr :: r2 ∧
      (mkStock "W" [sObj90] [rObj110]).final_support = some fs ∧
      (mkStock "W" [sObj90] [rObj110]).final_resistance = some fr ∧
      (∀ s ∈ l1, s.avg ≤ fs.avg) ∧ (∀ s ∈ l2, s.avg < fs.avg) ∧
      (∀ s ∈ r1, s.avg ≤ fr.avg) ∧ (∀ s ∈ r2, s.avg < fr.avg) ∧
      (mkStock "W" [sObj90] [rObj110]).is_range_bound = true ∧
      (mkStock "W" [sObj90] [rObj110]).range_width = some (fr.avg - fs.avg)) ∧
    ((mkStock "W" ([] : List SupportObj) [rObj110]).is_range_bound = false ∧
      (mkStock "W" ([] : List SupportObj) [rObj110]).range_width = none) :=
  ⟨(c9_stock_aggregation "W" [sObj90] [rObj110]).1 (by simp) (by simp),
   (c9_stock_aggregation "W" [] [rObj110]).2 (Or.inl rfl)⟩

/- ---------------------------------------------------------------------
   Claim C10
--------------------------------------------------------------------- -/

/-- C10: each of the four validators leaves the caller's row data (dates
and prices) unchanged but renames the caller's table columns to
['date', 'price']; with the column-name state passed explicitly, the table
state returned alongside the result shows the renaming that remains
visible to the caller. -/
theorem c10_column_rename (level : ScoredGroup) (t : PTable)
    (_hcols : t.cols.length = 2) :
    ((is_support_valid_df level t).2.cols = [ "date", "price"] ∧
      (is_support_valid_df level t).2.rows = t.rows) ∧
    ((is_resistance_valid_df level t).2.cols = [ "date", "price"] ∧
      (is_resistance_valid_df level t).2.rows = t.rows) ∧
    ((is_support_broken_df level t).2.cols = [ "date", "price"] ∧
      (is_support_broken_df level t).2.rows = t.rows) ∧
    ((is_resistance_broken_df level t).2.cols = [ "date", "price"] ∧
      (is_resistance_broken_df level t).2.rows = t.rows) :=
  ⟨⟨rfl, rfl⟩, ⟨rfl, rfl⟩, ⟨rfl, rfl⟩, ⟨rfl, rfl⟩⟩

/-- C10 witness: the theorem applied to a concrete two-column table. -/
theorem c10_column_rename_witness :
    ((is_support_valid_df wG3 wPT).2.cols = [ "date", "price"] ∧
      (is_support_valid_df wG3 wPT).2.rows = wPT.rows) ∧
    ((is_resistance_valid_df wG3 wPT).2.cols = [ "date", "price"] ∧
      (is_resistance_valid_df wG3 wPT).2.rows = wPT.rows) ∧
    ((is_support_broken_df wG3 wPT).2.cols = [ "date", "price"] ∧
      (is_support_broken_df wG3 wPT).2.rows = wPT.rows) ∧
    ((is_resistance_broken_df wG3 wPT).2.cols = [ "date", "price"] ∧
      (is_resistance_broken_df wG3 wPT).2.rows = wPT.rows) :=
  c10_column_rename wG3 wPT (by rfl)

end StockAnalysis
